import Mathlib

/-!
Verification of the `remoteobjects.dataobject` core (file
`src/remoteobjects/dataobject.py`): the object/dictionary coding layer of
the `remoteobjects` package.

The development has three parts.

* A pure shallow embedding of the module: documents are association lists
  with Python-dict update semantics, entity classes carry their assembled
  field set, and the operations `update_from_dict`, `from_dict`, `to_dict`,
  `__eq__`/`__ne__`, the metaclass field collection and
  `subclass_with_constant_field` are translated function by function.
  The `remoteobjects.fields` module is an external collaborator that is not
  part of the analysed source; field descriptors are therefore modelled
  from the specification's Field Descriptor contract (spec section 4.1): a
  field optionally implements decode-into (reading the incoming document's
  entry for its own attribute name and producing an attribute update) and
  encode-into (reading the attribute's current value and producing the
  value written under its own key), either of which may raise.

* A heap model with explicit addresses for the aliasing/deep-copy claims:
  cells are allocated by appending to a list, `copy.deepcopy` is a
  recursive fresh copy, and mutation is replacement of a cell's content.

* Theorems settling the claims, each with a witness at concrete inputs.
-/

/-- A generic JSON-like document value (spec section 6): null, boolean,
number, string, list, or nested string-keyed mapping. -/
inductive Value where
  | vnull : Value
  | vbool : Bool → Value
  | vint : Int → Value
  | vstr : String → Value
  | vlist : List Value → Value
  | vdict : List (String × Value) → Value

mutual

def Value.beq : Value → Value → Bool
  | .vnull, .vnull => true
  | .vbool a, .vbool b => a == b
  | .vint a, .vint b => a == b
  | .vstr a, .vstr b => a == b
  | .vlist xs, .vlist ys => Value.beqList xs ys
  | .vdict xs, .vdict ys => Value.beqDict xs ys
  | _, _ => false

def Value.beqList : List Value → List Value → Bool
  | [], [] => true
  | x :: xs, y :: ys => Value.beq x y && Value.beqList xs ys
  | _, _ => false

def Value.beqDict : List (String × Value) → List (String × Value) → Bool
  | [], [] => true
  | (k1, v1) :: xs, (k2, v2) :: ys =>
      k1 == k2 && Value.beq v1 v2 && Value.beqDict xs ys
  | _, _ => false

end

theorem Value.sizeOf_pos : ∀ (a : Value), 0 < sizeOf a := by
  intro a
  cases a <;> simp_arith

theorem Value.beqList_eq {xs ys : List Value}
    (hel : ∀ x ∈ xs, ∀ y, Value.beq x y = true → x = y)
    (hb : Value.beqList xs ys = true) : xs = ys := by
  induction xs generalizing ys with
  | nil =>
    cases ys with
    | nil => rfl
    | cons y ys => exact Bool.noConfusion hb
  | cons x xs ihx =>
    cases ys with
    | nil => exact Bool.noConfusion hb
    | cons y ys =>
      simp only [Value.beqList, Bool.and_eq_true] at hb
      rw [hel x (List.mem_cons_self _ _) y hb.1,
        ihx (fun z hz => hel z (List.mem_cons_of_mem _ hz)) hb.2]

theorem Value.beqDict_eq {xs ys : List (String × Value)}
    (hel : ∀ p ∈ xs, ∀ y, Value.beq p.2 y = true → p.2 = y)
    (hb : Value.beqDict xs ys = true) : xs = ys := by
  induction xs generalizing ys with
  | nil =>
    cases ys with
    | nil => rfl
    | cons y ys => exact Bool.noConfusion hb
  | cons x xs ihx =>
    obtain ⟨k1, v1⟩ := x
    cases ys with
    | nil => exact Bool.noConfusion hb
    | cons y ys =>
      obtain ⟨k2, v2⟩ := y
      simp only [Value.beqDict, Bool.and_eq_true] at hb
      have hk : k1 = k2 := eq_of_beq hb.1.1
      have hv : v1 = v2 := hel (k1, v1) (List.mem_cons_self _ _) v2 hb.1.2
      rw [hk, hv, ihx (fun z hz => hel z (List.mem_cons_of_mem _ hz)) hb.2]

theorem Value.eq_of_beq_aux :
    ∀ (n : Nat),
      (∀ (a b : Value), sizeOf a ≤ n → Value.beq a b = true → a = b) := by
  intro n
  induction n with
  | zero =>
    intro a b hsz _
    exact absurd hsz (by have := Value.sizeOf_pos a; omega)
  | succ n ih =>
    intro a b hsz hbeq
    cases a <;> cases b <;> simp only [Value.beq] at hbeq <;>
      try exact Bool.noConfusion hbeq
    case vnull.vnull => rfl
    case vbool.vbool x y => rw [eq_of_beq hbeq]
    case vint.vint x y => rw [eq_of_beq hbeq]
    case vstr.vstr x y => rw [eq_of_beq hbeq]
    case vlist.vlist xs ys =>
      simp_arith at hsz
      congr 1
      refine Value.beqList_eq (fun x hx y hxy => ih x y ?_ hxy) hbeq
      have := List.sizeOf_lt_of_mem hx
      omega
    case vdict.vdict xs ys =>
      simp_arith at hsz
      congr 1
      refine Value.beqDict_eq (fun p hp y hxy => ih p.2 y ?_ hxy) hbeq
      have h1 := List.sizeOf_lt_of_mem hp
      have h2 : sizeOf p.2 ≤ sizeOf p := by
        obtain ⟨pk, pv⟩ := p
        simp_arith
      omega

theorem Value.eq_of_beq {a b : Value} (h : Value.beq a b = true) : a = b :=
  Value.eq_of_beq_aux (sizeOf a) a b (Nat.le_refl _) h

theorem Value.beqList_self {xs : List Value}
    (hel : ∀ x ∈ xs, Value.beq x x = true) : Value.beqList xs xs = true := by
  induction xs with
  | nil => rfl
  | cons x rest ihx =>
    simp only [Value.beqList, Bool.and_eq_true]
    exact ⟨hel x (List.mem_cons_self _ _),
      ihx (fun z hz => hel z (List.mem_cons_of_mem _ hz))⟩

theorem Value.beqDict_self {xs : List (String × Value)}
    (hel : ∀ p ∈ xs, Value.beq p.2 p.2 = true) : Value.beqDict xs xs = true := by
  induction xs with
  | nil => rfl
  | cons x rest ihx =>
    obtain ⟨k1, v1⟩ := x
    simp only [Value.beqDict, Bool.and_eq_true]
    exact ⟨⟨beq_self_eq_true k1, hel (k1, v1) (List.mem_cons_self _ _)⟩,
      ihx (fun z hz => hel z (List.mem_cons_of_mem _ hz))⟩

theorem Value.beq_refl_aux :
    ∀ (n : Nat), (∀ (a : Value), sizeOf a ≤ n → Value.beq a a = true) := by
  intro n
  induction n with
  | zero =>
    intro a hsz
    exact absurd hsz (by have := Value.sizeOf_pos a; omega)
  | succ n ih =>
    intro a hsz
    cases a <;> simp only [Value.beq]
    case vbool x => exact beq_self_eq_true x
    case vint x => exact beq_self_eq_true x
    case vstr x => exact beq_self_eq_true x
    case vlist xs =>
      simp_arith at hsz
      refine Value.beqList_self (fun x hx => ih x ?_)
      have := List.sizeOf_lt_of_mem hx
      omega
    case vdict xs =>
      simp_arith at hsz
      refine Value.beqDict_self (fun p hp => ih p.2 ?_)
      have h1 := List.sizeOf_lt_of_mem hp
      have h2 : sizeOf p.2 ≤ sizeOf p := by
        obtain ⟨pk, pv⟩ := p
        simp_arith
      omega

theorem Value.beq_refl (a : Value) : Value.beq a a = true :=
  Value.beq_refl_aux (sizeOf a) a (Nat.le_refl _)

instance : DecidableEq Value := fun a b =>
  if h : Value.beq a b = true then isTrue (Value.eq_of_beq h)
  else isFalse (fun heq => h (heq ▸ Value.beq_refl a))

theorem Value.beq_iff_eq (a b : Value) : Value.beq a b = true ↔ a = b :=
  ⟨Value.eq_of_beq, fun h => h ▸ Value.beq_refl a⟩

/-- Boolean equality on optional values (used where Python compares two
attribute values that may be absent). -/
def optBeq (a b : Option Value) : Bool :=
  match a, b with
  | none, none => true
  | some x, some y => Value.beq x y
  | _, _ => false

theorem optBeq_iff_eq (a b : Option Value) : optBeq a b = true ↔ a = b := by
  cases a <;> cases b <;> simp [optBeq, Value.beq_iff_eq]

/-- A document: a Python dict with string keys, modelled as an association
list.  A genuine dict has no duplicate keys; theorems assume `Nodup` on the
key list where the claim speaks about a document. -/
abbrev Dict := List (String × Value)

/-- Python exceptions that the embedded code can raise. -/
inductive PyErr where
  | keyError : String → PyErr
  | typeError : PyErr
  | valueError : String → PyErr
  | attributeError : String → PyErr
deriving DecidableEq, Repr

/-! ### Association-list operations with Python-dict semantics -/

/-- `d[k]` lookup; `none` when the key is absent. -/
def alGet {α : Type} (l : List (String × α)) (k : String) : Option α :=
  match l with
  | [] => none
  | (k', v) :: rest => if k' = k then some v else alGet rest k

/-- `d[k] = v`: replace the binding in place if the key is present
(Python dicts keep the key's slot), otherwise append it. -/
def alSet {α : Type} (l : List (String × α)) (k : String) (v : α) :
    List (String × α) :=
  match l with
  | [] => [(k, v)]
  | (k', v') :: rest => if k' = k then (k, v) :: rest else (k', v') :: alSet rest k v

/-- `del d[k]`. -/
def alDel {α : Type} (l : List (String × α)) (k : String) : List (String × α) :=
  l.filter (fun p => p.1 ≠ k)

/-- `d.update(other)`: write each binding of `other` into `d` in order. -/
def alUpdate {α : Type} (d other : List (String × α)) : List (String × α) :=
  other.foldl (fun acc p => alSet acc p.1 p.2) d

theorem alGet_alSet {α : Type} (l : List (String × α)) (k j : String) (v : α) :
    alGet (alSet l k v) j = if k = j then some v else alGet l j := by
  induction l with
  | nil => simp [alSet, alGet]
  | cons p rest ih =>
    obtain ⟨k', v'⟩ := p
    by_cases hk : k' = k
    · subst hk
      simp only [alSet, if_pos rfl, alGet]
      by_cases hj : k' = j
      · subst hj; simp
      · simp [hj, alGet, fun h : k' = j => hj h]
    · simp only [alSet, if_neg hk, alGet]
      by_cases hj : k' = j
      · subst hj
        have : ¬ k = k' := fun h => hk h.symm
        simp [this]
      · simp [hj, ih]

theorem alGet_eq_none_iff {α : Type} (l : List (String × α)) (k : String) :
    alGet l k = none ↔ k ∉ l.map Prod.fst := by
  induction l with
  | nil => simp [alGet]
  | cons p rest ih =>
    obtain ⟨k', v'⟩ := p
    by_cases h : k' = k
    · subst h
      simp [alGet]
    · have hstep : alGet ((k', v') :: rest) k = alGet rest k := by
        simp [alGet, h]
      rw [hstep, ih]
      simp only [List.map_cons, List.mem_cons]
      constructor
      · rintro hn (rfl | hm)
        · exact h rfl
        · exact hn hm
      · intro hn hm
        exact hn (Or.inr hm)

theorem alGet_mem {α : Type} (l : List (String × α)) (k : String) (v : α)
    (h : alGet l k = some v) : (k, v) ∈ l := by
  induction l with
  | nil => simp [alGet] at h
  | cons p rest ih =>
    obtain ⟨k', v'⟩ := p
    by_cases hk : k' = k
    · subst hk
      have hv : alGet ((k', v') :: rest) k' = some v' := by simp [alGet]
      rw [hv] at h
      injection h with h
      subst h
      exact List.mem_cons_self _ _
    · simp only [alGet, if_neg hk] at h
      exact List.mem_cons_of_mem _ (ih h)

theorem mem_alGet_of_nodup {α : Type} (l : List (String × α)) (k : String) (v : α)
    (hnd : (l.map Prod.fst).Nodup) (h : (k, v) ∈ l) : alGet l k = some v := by
  induction l with
  | nil => simp at h
  | cons p rest ih =>
    obtain ⟨k', v'⟩ := p
    simp only [List.map_cons, List.nodup_cons] at hnd
    rcases List.mem_cons.mp h with h1 | h1
    · cases h1
      simp [alGet]
    · have hk : k' ≠ k := fun hkk =>
        hnd.1 (by rw [hkk]; exact List.mem_map.mpr ⟨(k, v), h1, rfl⟩)
      simp only [alGet, if_neg hk]
      exact ih hnd.2 h1

/-- Updating with a dict whose keys avoid `k` leaves the lookup at `k`
unchanged. -/
theorem alGet_alUpdate_not_mem {α : Type} (d other : List (String × α)) (k : String)
    (h : k ∉ other.map Prod.fst) :
    alGet (alUpdate d other) k = alGet d k := by
  induction other generalizing d with
  | nil => simp [alUpdate]
  | cons p rest ih =>
    obtain ⟨k', v'⟩ := p
    simp only [List.map_cons, List.mem_cons] at h
    push_neg at h
    have hstep : alUpdate d ((k', v') :: rest) = alUpdate (alSet d k' v') rest := rfl
    rw [hstep, ih _ h.2, alGet_alSet]
    rw [if_neg (fun hh : k' = k => h.1 hh.symm)]

/-- Lookup after `d.update(other)` for duplicate-free `other`: the binding
from `other` wins when present, otherwise the old binding remains. -/
theorem alGet_alUpdate {α : Type} (d other : List (String × α)) (k : String)
    (hnd : (other.map Prod.fst).Nodup) :
    alGet (alUpdate d other) k =
      match alGet other k with
      | some v => some v
      | none => alGet d k := by
  induction other generalizing d with
  | nil => simp [alUpdate, alGet]
  | cons p rest ih =>
    obtain ⟨k', v'⟩ := p
    simp only [List.map_cons, List.nodup_cons] at hnd
    have step : alUpdate d ((k', v') :: rest) = alUpdate (alSet d k' v') rest := rfl
    rw [step]
    by_cases hk : k' = k
    · subst hk
      have hnone : alGet rest k' = none :=
        (alGet_eq_none_iff rest k').mpr hnd.1
      rw [alGet_alUpdate_not_mem _ _ _ hnd.1, alGet_alSet]
      simp [alGet, hnone]
    · rw [ih _ hnd.2, alGet_alSet]
      simp [alGet, hk]

/-- The key list after `d[k] = v`: unchanged when `k` is already a key,
otherwise extended by `k` at the end. -/
theorem alSet_map_fst {α : Type} (l : List (String × α)) (k : String) (v : α) :
    (alSet l k v).map Prod.fst =
      if k ∈ l.map Prod.fst then l.map Prod.fst else l.map Prod.fst ++ [k] := by
  induction l with
  | nil => simp [alSet]
  | cons p rest ih =>
    obtain ⟨k', v'⟩ := p
    by_cases hk : k' = k
    · subst hk
      simp [alSet]
    · have hkk' : ¬ k = k' := fun h => hk h.symm
      simp only [alSet, if_neg hk, List.map_cons, ih]
      by_cases hmem : k ∈ rest.map Prod.fst
      · rw [if_pos hmem, if_pos (List.mem_cons.mpr (Or.inr hmem))]
      · rw [if_neg hmem,
          if_neg (fun hc => by
            rcases List.mem_cons.mp hc with hc | hc
            · exact hkk' hc
            · exact hmem hc)]
        simp

theorem alSet_nodup_keys {α : Type} (l : List (String × α)) (k : String) (v : α)
    (hnd : (l.map Prod.fst).Nodup) : ((alSet l k v).map Prod.fst).Nodup := by
  rw [alSet_map_fst]
  by_cases hmem : k ∈ l.map Prod.fst
  · simpa [hmem] using hnd
  · simp only [if_neg hmem]
    refine List.Nodup.append hnd (List.nodup_singleton k) ?_
    intro a ha hak
    rw [List.mem_singleton] at hak
    subst hak
    exact hmem ha

/-! ### The Field Descriptor contract

`remoteobjects.fields` is an external collaborator of the analysed module
(`import remoteobjects.fields`); its source is not part of the core.
The descriptors are therefore modelled from the specification's Field
Descriptor contract (spec section 4.1).

Modelled from the spec: a field descriptor optionally implements
decode-into ("reads document[field_name], converts it, and assigns it
against the target instance; must tolerate a missing key") and encode-into
("reads the instance's current value for the field and writes an encoded
representation into document[field_name]").  A hook receives the entry for
its own attribute name (`none` when absent) and either raises, does
nothing (`.ok none`), or produces the value to store (`.ok (some v)`).
`isField` models `isinstance(field, remoteobjects.fields.Field)`, the
"plain value-carrying field" test used by `DataObject.__eq__` (the
metaclass itself only requires the broader `Property` test, which every
descriptor in this model satisfies). -/
structure FieldDesc where
  isField : Bool
  decode? : Option (Option Value → Except PyErr (Option Value))
  encode? : Option (Option Value → Except PyErr (Option Value))

/-- The basic `fields.Field` behaviour (modelled from the spec): decoding
stores the document's entry verbatim and skips a missing key; encoding
writes the attribute's current value verbatim and skips an unset
attribute. -/
def plainField : FieldDesc where
  isField := true
  decode? := some (fun entry => .ok entry)
  encode? := some (fun attr => .ok attr)

/-- An entity class as assembled by `DataObjectMetaclass`: its name, its
field set (attribute name to descriptor, in iteration order), and `clsId`
standing for the identity of the Python class object (`type(self) !=
type(other)` compares identities; distinct classes have distinct ids). -/
structure DOClass where
  clsId : Nat
  name : String
  fields : List (String × FieldDesc)

/-- A `DataObject` instance: its dynamic attribute bag plus the private
`_originaldata` snapshot, absent until the first decode. -/
structure Instance where
  attrs : List (String × Value)
  originaldata? : Option Dict

/-- `getattr(self, k)` over the attribute bag (`none` when unset). -/
def getAttr (i : Instance) (k : String) : Option Value :=
  alGet i.attrs k

/-- `setattr(self, k, v)`. -/
def setAttr (i : Instance) (k : String) (v : Value) : Instance :=
  { i with attrs := alSet i.attrs k v }

/-- `copy.deepcopy` on a document.  Documents are pure values in this
model, so a deep copy is the value itself; the aliasing content of
`deepcopy` is treated in the heap model below. -/
def pyDeepcopy (d : Dict) : Dict := d

/-- Lines 169-172 of `update_from_dict`: create `_originaldata` if absent,
then `self._originaldata.update(deepcopy(data))`. -/
def mergeOriginal (i : Instance) (data : Dict) : Instance :=
  { i with originaldata? := some (alUpdate (i.originaldata?.getD []) (pyDeepcopy data)) }

/-- Lines 174-176: for each field of the field set that has `decode_into`,
invoke it on the incoming document.  The result carries the instance state
at return time together with the exception, if one was raised: Python
mutates `self` in place, so an uncaught exception leaves the instance in
the partially-updated state it had at the raise. -/
def decodeLoop (data : Dict) :
    List (String × FieldDesc) → Instance → Instance × Option PyErr
  | [], i => (i, none)
  | (k, f) :: rest, i =>
    match f.decode? with
    | none => decodeLoop data rest i
    | some dec =>
      match dec (alGet data k) with
      | .error e => (i, some e)
      | .ok none => decodeLoop data rest i
      | .ok (some v) => decodeLoop data rest (setAttr i k v)

/-- `DataObject.update_from_dict(self, data)` (lines 156-176). -/
def update_from_dict (c : DOClass) (i : Instance) (data : Dict) :
    Instance × Option PyErr :=
  decodeLoop data c.fields (mergeOriginal i data)

/-- `DataObject.from_dict(cls, data)` (lines 149-154): construct a bare
instance, then update it from the document. -/
def from_dict (c : DOClass) (data : Dict) : Instance × Option PyErr :=
  update_from_dict c { attrs := [], originaldata? := none } data

/-- Lines 144-146 of `to_dict`: overlay each field's `encode_into` onto
the working document.  An uncaught exception aborts the call; the partial
document is a local variable and is discarded. -/
def encodeLoop (i : Instance) :
    List (String × FieldDesc) → Dict → Except PyErr Dict
  | [], d => .ok d
  | (k, f) :: rest, d =>
    match f.encode? with
    | none => encodeLoop i rest d
    | some enc =>
      match enc (getAttr i k) with
      | .error e => .error e
      | .ok none => encodeLoop i rest d
      | .ok (some v) => encodeLoop i rest (alSet d k v)

/-- `DataObject.to_dict(self)` (lines 137-147): start from a deep copy of
`_originaldata` (an empty dict when the attribute is absent), then overlay
the encodes. -/
def to_dict (c : DOClass) (i : Instance) : Except PyErr Dict :=
  encodeLoop i c.fields (pyDeepcopy (i.originaldata?.getD []))

/-- An instance together with its concrete class. -/
structure TInstance where
  cls : DOClass
  inst : Instance

/-- `DataObject.__eq__` (lines 113-126): same concrete type, then compare
`getattr` values for every field-set entry that is a plain
`fields.Field`. -/
def dobjEq (x y : TInstance) : Bool :=
  if x.cls.clsId ≠ y.cls.clsId then false
  else x.cls.fields.all fun kf =>
    !kf.2.isField || optBeq (getAttr x.inst kf.1) (getAttr y.inst kf.1)

/-- `DataObject.__ne__` (lines 128-135): `not self == other`. -/
def dobjNe (x y : TInstance) : Bool :=
  !dobjEq x y

/-! ### The metaclass field collector (`DataObjectMetaclass.__new__`) -/

/-- A class-body attribute as seen by the metaclass: either a
`remoteobjects.fields.Property` descriptor or a plain value. -/
inductive DeclAttr where
  | propertyDecl : FieldDesc → DeclAttr
  | plainDecl : Value → DeclAttr

/-- Lines 52-55: `fields = {}`, then merge each base's field set in
declaration order (`fields.update(base.fields)`). -/
def inheritedFields (bases : List DOClass) : List (String × FieldDesc) :=
  bases.foldl (fun fs b => alUpdate fs b.fields) []

/-- Lines 57-70: scan the class body.  Descriptors are recorded into
`new_fields`; a non-descriptor attribute whose name is an inherited field
deletes that name from `fields`. -/
def collectLoop :
    List (String × DeclAttr) → List (String × FieldDesc) →
      List (String × FieldDesc) →
      List (String × FieldDesc) × List (String × FieldDesc)
  | [], fields, newFields => (fields, newFields)
  | (n, .propertyDecl f) :: rest, fields, newFields =>
      collectLoop rest fields (alSet newFields n f)
  | (n, .plainDecl _) :: rest, fields, newFields =>
      collectLoop rest
        (if (alGet fields n).isSome then alDel fields n else fields) newFields

/-- Lines 49-73: the assembled field set of a new class, from its bases'
field sets and its declared attributes (`fields.update(new_fields)` at
line 72). -/
def collectFields (bases : List DOClass) (attrs : List (String × DeclAttr)) :
    List (String × FieldDesc) :=
  let fn := collectLoop attrs (inheritedFields bases) []
  alUpdate fn.1 fn.2

/-! ### The registries and discriminator dispatch -/

/-- `dataobject.find_by_name(name)` (lines 24-31): look `name` up in the
`classes_by_name` registry; raise `KeyError` when absent. -/
def find_by_name (classes_by_name : List (String × DOClass)) (name : String) :
    Except PyErr DOClass :=
  match alGet classes_by_name name with
  | some c => .ok c
  | none => .error (.keyError name)

/-- Python `tuple(value)`: iterate the value, yielding a string's
characters, a list's elements, or a dict's keys; a non-iterable value
(None, a boolean, a number) raises `TypeError`. -/
def pyTuple : Value → Option (List Value)
  | .vstr s => some (s.data.map fun ch => .vstr ch.toString)
  | .vlist xs => some xs
  | .vdict es => some (es.map fun p => .vstr p.1)
  | _ => none

/-- A single-quote character, as Python's `repr` uses around strings. -/
def pyQuote (s : String) : String :=
  (Char.ofNat 39).toString ++ s ++ (Char.ofNat 39).toString

mutual

/-- Python `repr` of a document value, as interpolated by `%r`. -/
def pyRepr : Value → String
  | .vnull => "None"
  | .vbool true => "True"
  | .vbool false => "False"
  | .vint n => toString n
  | .vstr s => pyQuote s
  | .vlist xs => "[" ++ pyReprSeq xs ++ "]"
  | .vdict es => "\x7b" ++ pyReprItems es ++ "\x7d"

def pyReprSeq : List Value → String
  | [] => ""
  | [v] => pyRepr v
  | v :: rest => pyRepr v ++ ", " ++ pyReprSeq rest

def pyReprItems : List (String × Value) → String
  | [] => ""
  | [(k, v)] => pyQuote k ++ ": " ++ pyRepr v
  | (k, v) :: rest => pyQuote k ++ ": " ++ pyRepr v ++ ", " ++ pyReprItems rest

end

/-- The `ValueError` message of `subclass_with_constant_field`
(lines 209-210): `'No such subclass of %s with field %r equivalent to
%r' % (cls.__name__, fieldname, value)`. -/
def noSubclassMsg (clsName fieldname : String) (value : Value) : String :=
  "No such subclass of " ++ clsName ++ " with field " ++
    pyRepr (.vstr fieldname) ++ " equivalent to " ++ pyRepr value

/-- Lookup in one `classes_by_constant_field[fieldname]` table, keyed by
`tuple(value)`. -/
def tupleGet (m : List (List Value × String)) (t : List Value) :
    Option String :=
  (m.find? fun p => Value.beqList p.1 t).map (·.2)

/-- `DataObject.subclass_with_constant_field(cls, fieldname, value)`
(lines 178-210).  Line 202 evaluates the outer subscript
`classes_by_constant_field[fieldname]` first: its `KeyError` (an
unregistered field name) is caught and becomes the `ValueError`, before
`tuple(value)` is ever evaluated.  Only then is `tuple(value)` evaluated;
a `TypeError` from it is not caught (the `except` clause only catches
`KeyError`).  A `KeyError` from the inner subscript falls through to the
`ValueError`; on a hit the stored class name is resolved through
`find_by_name`, whose own `KeyError` propagates (it is raised in the
`else` branch, outside the `try`). -/
def subclass_with_constant_field
    (classes_by_constant_field : List (String × List (List Value × String)))
    (classes_by_name : List (String × DOClass))
    (clsName fieldname : String) (value : Value) : Except PyErr DOClass :=
  match alGet classes_by_constant_field fieldname with
  | none => .error (.valueError (noSubclassMsg clsName fieldname value))
  | some m =>
    match pyTuple value with
    | none => .error .typeError
    | some tup =>
      match tupleGet m tup with
      | some clsname => find_by_name classes_by_name clsname
      | none => .error (.valueError (noSubclassMsg clsName fieldname value))

/-- Python `==` on two dicts: same keys, and equal values at every key. -/
def pyDictEq (d1 d2 : Dict) : Bool :=
  (d1.map Prod.fst).all (fun k => optBeq (alGet d1 k) (alGet d2 k)) &&
    (d2.map Prod.fst).all (fun k => optBeq (alGet d1 k) (alGet d2 k))

/-! ### Basic lemmas about the decode/encode protocol -/

/-- The decode loop never touches `_originaldata`: under the spec's field
contract a decode only assigns the field's attribute. -/
theorem decodeLoop_originaldata (data : Dict) (fs : List (String × FieldDesc))
    (i : Instance) :
    (decodeLoop data fs i).1.originaldata? = i.originaldata? := by
  induction fs generalizing i with
  | nil => rfl
  | cons kf rest ih =>
    obtain ⟨k, f⟩ := kf
    cases hd : f.decode? with
    | none =>
      simp only [decodeLoop, hd]
      exact ih i
    | some dec =>
      cases he : dec (alGet data k) with
      | error e => simp only [decodeLoop, hd, he]
      | ok r =>
        cases r with
        | none =>
          simp only [decodeLoop, hd, he]
          exact ih i
        | some v =>
          simp only [decodeLoop, hd, he]
          exact ih (setAttr i k v)

/-- The decode loop only assigns attributes named in the field list. -/
theorem decodeLoop_attr_not_mem (data : Dict) (fs : List (String × FieldDesc))
    (i : Instance) (k : String) (hk : k ∉ fs.map Prod.fst) :
    getAttr (decodeLoop data fs i).1 k = getAttr i k := by
  induction fs generalizing i with
  | nil => rfl
  | cons kf rest ih =>
    obtain ⟨k', f⟩ := kf
    simp only [List.map_cons, List.mem_cons] at hk
    push_neg at hk
    cases hd : f.decode? with
    | none =>
      simp only [decodeLoop, hd]
      exact ih i hk.2
    | some dec =>
      cases he : dec (alGet data k') with
      | error e => simp only [decodeLoop, hd, he]
      | ok r =>
        cases r with
        | none =>
          simp only [decodeLoop, hd, he]
          exact ih i hk.2
        | some v =>
          simp only [decodeLoop, hd, he]
          rw [ih (setAttr i k' v) hk.2]
          simp only [getAttr, setAttr, alGet_alSet]
          rw [if_neg (fun h => hk.1 h.symm)]

/-- Splitting the decode loop at a field boundary. -/
theorem decodeLoop_append (data : Dict) (pre rest : List (String × FieldDesc))
    (i : Instance) :
    decodeLoop data (pre ++ rest) i =
      match decodeLoop data pre i with
      | (i', none) => decodeLoop data rest i'
      | (i', some e) => (i', some e) := by
  induction pre generalizing i with
  | nil => rfl
  | cons kf pre ih =>
    obtain ⟨k, f⟩ := kf
    cases hd : f.decode? with
    | none =>
      simp only [List.cons_append, decodeLoop, hd]
      exact ih i
    | some dec =>
      cases he : dec (alGet data k) with
      | error e => simp only [List.cons_append, decodeLoop, hd, he]
      | ok r =>
        cases r with
        | none =>
          simp only [List.cons_append, decodeLoop, hd, he]
          exact ih i
        | some v =>
          simp only [List.cons_append, decodeLoop, hd, he]
          exact ih (setAttr i k v)

/-- The encode loop only writes keys named in the field list. -/
theorem encodeLoop_get_not_mem (i : Instance) (fs : List (String × FieldDesc))
    (d out : Dict) (k : String) (hk : k ∉ fs.map Prod.fst)
    (h : encodeLoop i fs d = .ok out) : alGet out k = alGet d k := by
  induction fs generalizing d with
  | nil =>
    simp only [encodeLoop] at h
    injection h with h
    rw [h]
  | cons kf rest ih =>
    obtain ⟨k', f⟩ := kf
    simp only [List.map_cons, List.mem_cons] at hk
    push_neg at hk
    cases hfe : f.encode? with
    | none =>
      simp only [encodeLoop, hfe] at h
      exact ih d hk.2 h
    | some enc =>
      cases henc : enc (getAttr i k') with
      | error e =>
        simp only [encodeLoop, hfe, henc] at h
        exact Except.noConfusion h
      | ok r =>
        cases r with
        | none =>
          simp only [encodeLoop, hfe, henc] at h
          exact ih d hk.2 h
        | some v =>
          simp only [encodeLoop, hfe, henc] at h
          rw [ih _ hk.2 h, alGet_alSet]
          rw [if_neg (fun hh => hk.1 hh.symm)]

/-- Splitting the encode loop at a field boundary. -/
theorem encodeLoop_append (i : Instance) (pre rest : List (String × FieldDesc))
    (d : Dict) :
    encodeLoop i (pre ++ rest) d =
      match encodeLoop i pre d with
      | .ok d' => encodeLoop i rest d'
      | .error e => .error e := by
  induction pre generalizing d with
  | nil => rfl
  | cons kf pre ih =>
    obtain ⟨k, f⟩ := kf
    cases hfe : f.encode? with
    | none =>
      simp only [List.cons_append, encodeLoop, hfe]
      exact ih d
    | some enc =>
      cases henc : enc (getAttr i k) with
      | error e => simp only [List.cons_append, encodeLoop, hfe, henc]
      | ok r =>
        cases r with
        | none =>
          simp only [List.cons_append, encodeLoop, hfe, henc]
          exact ih d
        | some v =>
          simp only [List.cons_append, encodeLoop, hfe, henc]
          exact ih (alSet d k v)

/-- Two decode runs agree when the documents agree on every field key and
the attribute bags agree: a decode reads only its own key. -/
theorem decodeLoop_congr (data data' : Dict) (fs : List (String × FieldDesc))
    (i j : Instance)
    (hdoc : ∀ k ∈ fs.map Prod.fst, alGet data k = alGet data' k)
    (hattr : i.attrs = j.attrs) :
    (decodeLoop data fs i).1.attrs = (decodeLoop data' fs j).1.attrs ∧
      (decodeLoop data fs i).2 = (decodeLoop data' fs j).2 := by
  induction fs generalizing i j with
  | nil => exact ⟨hattr, rfl⟩
  | cons kf rest ih =>
    obtain ⟨k, f⟩ := kf
    have hk : alGet data k = alGet data' k :=
      hdoc k (by simp)
    have hrest : ∀ k ∈ rest.map Prod.fst, alGet data k = alGet data' k :=
      fun k hk => hdoc k (by simp [hk])
    cases hd : f.decode? with
    | none =>
      simp only [decodeLoop, hd]
      exact ih i j hrest hattr
    | some dec =>
      cases he : dec (alGet data k) with
      | error e =>
        simp only [decodeLoop, hd, he, hk ▸ he]
        exact ⟨hattr, trivial⟩
      | ok r =>
        cases r with
        | none =>
          simp only [decodeLoop, hd, he, hk ▸ he]
          exact ih i j hrest hattr
        | some v =>
          simp only [decodeLoop, hd, he, hk ▸ he]
          refine ih _ _ hrest ?_
          simp only [setAttr, hattr]

/-! ### Claim C1: unknown-key preservation -/

/-- C1: for every entity type and every document `d` containing a key `x`
mapped to no field of that type, the instance built by `from_dict d`
retains that key in its original-data snapshot, and `to_dict` on that
instance returns a document whose `x` entry equals `d`'s `x` value. -/
theorem unknown_key_preservation
    (c : DOClass) (d : Dict) (x : String) (xv : Value) (inst : Instance)
    (out : Dict)
    (hnodup : (d.map Prod.fst).Nodup)
    (hx : alGet c.fields x = none)
    (hxv : alGet d x = some xv)
    (hbuild : from_dict c d = (inst, none))
    (hout : to_dict c inst = .ok out) :
    ∃ od, inst.originaldata? = some od ∧ alGet od x = some xv ∧
      alGet out x = some xv := by
  have hinst : inst = (from_dict c d).1 := by rw [hbuild]
  have hod : inst.originaldata? = some (alUpdate [] d) := by
    rw [hinst]
    show (decodeLoop d c.fields
      (mergeOriginal { attrs := [], originaldata? := none } d)).1.originaldata? = _
    rw [decodeLoop_originaldata]
    rfl
  have hud : alGet (alUpdate [] d) x = some xv := by
    rw [alGet_alUpdate _ _ _ hnodup, hxv]
  have hxnot : x ∉ c.fields.map Prod.fst := (alGet_eq_none_iff _ _).mp hx
  have hout2 : alGet out x = alGet (alUpdate [] d) x := by
    have hdef : to_dict c inst =
        encodeLoop inst c.fields (pyDeepcopy (inst.originaldata?.getD [])) := rfl
    rw [hdef, hod] at hout
    exact encodeLoop_get_not_mem _ _ _ _ _ hxnot hout
  exact ⟨alUpdate [] d, hod, hud, hout2.trans hud⟩

/-- A sample entity type with one plain field, used by witnesses. -/
def wAsset : DOClass :=
  { clsId := 1, name := "Asset", fields := [("name", plainField)] }

/-- A sample document with one unrecognized key, used by witnesses. -/
def wDoc : Dict := [("name", .vstr "n"), ("x", .vint 1)]

theorem unknown_key_preservation_witness :
    ((wDoc.map Prod.fst).Nodup ∧ alGet wAsset.fields "x" = none ∧
        alGet wDoc "x" = some (.vint 1) ∧
        from_dict wAsset wDoc = ((from_dict wAsset wDoc).1, none)) ∧
      ∃ od, (from_dict wAsset wDoc).1.originaldata? = some od ∧
        alGet od "x" = some (.vint 1) ∧
        ∃ out, to_dict wAsset (from_dict wAsset wDoc).1 = .ok out ∧
          alGet out "x" = some (.vint 1) := by
  refine ⟨⟨by decide, rfl, rfl, rfl⟩, ?_⟩
  obtain ⟨od, h1, h2, h3⟩ :=
    unknown_key_preservation wAsset wDoc "x" (.vint 1)
      (from_dict wAsset wDoc).1
      [("name", .vstr "n"), ("x", .vint 1)]
      (by decide) rfl rfl rfl rfl
  exact ⟨od, h1, h2, [("name", .vstr "n"), ("x", .vint 1)], rfl, h3⟩

/-! ### Claim C2: merge semantics on repeated decode -/

theorem optBeq_refl (a : Option Value) : optBeq a a = true := by
  cases a with
  | none => rfl
  | some v => exact Value.beq_refl v

theorem pyDictEq_of_lookup_eq (d1 d2 : Dict)
    (h : ∀ j, alGet d1 j = alGet d2 j) : pyDictEq d1 d2 = true := by
  simp only [pyDictEq, Bool.and_eq_true, List.all_eq_true]
  constructor <;> intro k hk <;> rw [h k] <;> exact optBeq_refl _

/-- Decoding through plain `fields.Field` descriptors never raises, and
afterwards an attribute named by a field holds the document's entry when
the document has one, the previous value otherwise. -/
theorem plainField_decodeLoop (data : Dict) (fs : List (String × FieldDesc))
    (i : Instance) (hpf : ∀ p ∈ fs, p.2 = plainField) :
    (decodeLoop data fs i).2 = none ∧
      ∀ k, getAttr (decodeLoop data fs i).1 k =
        if k ∈ fs.map Prod.fst then
          match alGet data k with
          | some v => some v
          | none => getAttr i k
        else getAttr i k := by
  induction fs generalizing i with
  | nil =>
    refine ⟨rfl, fun k => ?_⟩
    simp [decodeLoop]
  | cons kf rest ih =>
    obtain ⟨k', f⟩ := kf
    have hf : f = plainField := hpf (k', f) (by simp)
    subst hf
    have hrest : ∀ p ∈ rest, p.2 = plainField :=
      fun p hp => hpf p (List.mem_cons_of_mem _ hp)
    cases hdk : alGet data k' with
    | none =>
      have hstep : decodeLoop data ((k', plainField) :: rest) i =
          decodeLoop data rest i := by
        simp only [decodeLoop, plainField, hdk]
      rw [hstep]
      obtain ⟨e1, e2⟩ := ih i hrest
      refine ⟨e1, fun k => ?_⟩
      rw [e2 k]
      by_cases hkr : k ∈ rest.map Prod.fst
      · simp [hkr]
      · by_cases hkk : k = k'
        · subst hkk
          simp [hkr, hdk]
        · simp [hkr, hkk]
    | some v =>
      have hstep : decodeLoop data ((k', plainField) :: rest) i =
          decodeLoop data rest (setAttr i k' v) := by
        simp only [decodeLoop, plainField, hdk]
      rw [hstep]
      obtain ⟨e1, e2⟩ := ih (setAttr i k' v) hrest
      refine ⟨e1, fun k => ?_⟩
      rw [e2 k]
      have hset : getAttr (setAttr i k' v) k =
          if k = k' then some v else getAttr i k := by
        simp only [getAttr, setAttr, alGet_alSet]
        by_cases hkk : k = k'
        · simp [hkk]
        · rw [if_neg (fun h => hkk h.symm), if_neg hkk]
      by_cases hkr : k ∈ rest.map Prod.fst
      · cases hdk2 : alGet data k with
        | some w => simp [hkr, hdk2]
        | none =>
          have hkk : ¬ k = k' := fun h => by
            rw [h, hdk] at hdk2
            exact Option.noConfusion hdk2
          simp [hkr, hdk2, hset, hkk]
      · by_cases hkk : k = k'
        · subst hkk
          simp [hkr, hdk, hset]
        · simp [hkr, hkk, hset]

/-- Encoding through plain `fields.Field` descriptors never raises and,
when every set attribute agrees with the working document, leaves every
lookup of the document unchanged. -/
theorem plainField_encodeLoop (i : Instance) (fs : List (String × FieldDesc))
    (d : Dict) (hpf : ∀ p ∈ fs, p.2 = plainField)
    (hsub : ∀ k v, getAttr i k = some v → alGet d k = some v) :
    ∃ out, encodeLoop i fs d = .ok out ∧ ∀ j, alGet out j = alGet d j := by
  induction fs generalizing d with
  | nil => exact ⟨d, rfl, fun j => rfl⟩
  | cons kf rest ih =>
    obtain ⟨k', f⟩ := kf
    have hf : f = plainField := hpf (k', f) (by simp)
    subst hf
    have hrest : ∀ p ∈ rest, p.2 = plainField :=
      fun p hp => hpf p (List.mem_cons_of_mem _ hp)
    cases hga : getAttr i k' with
    | none =>
      have hstep : encodeLoop i ((k', plainField) :: rest) d =
          encodeLoop i rest d := by
        simp only [encodeLoop, plainField, hga]
      rw [hstep]
      exact ih d hrest hsub
    | some v =>
      have hstep : encodeLoop i ((k', plainField) :: rest) d =
          encodeLoop i rest (alSet d k' v) := by
        simp only [encodeLoop, plainField, hga]
      rw [hstep]
      have hdk : alGet d k' = some v := hsub k' v hga
      have hsame : ∀ j, alGet (alSet d k' v) j = alGet d j := by
        intro j
        rw [alGet_alSet]
        by_cases hkk : k' = j
        · subst hkk
          rw [if_pos rfl, hdk]
        · rw [if_neg hkk]
      obtain ⟨out, h1, h2⟩ := ih (alSet d k' v) hrest
        (fun k v hv => by rw [hsame k]; exact hsub k v hv)
      exact ⟨out, h1, fun j => (h2 j).trans (hsame j)⟩

/-- C2 counterexample: the claim quantifies over every instance, but an
instance that already retains original data (here one built by
`from_dict` from a document with key `z`) keeps that data through the two
updates, so `to_dict` is not equal (as a Python dict) to the two sent
keys alone. -/
theorem merge_repeated_decode_cex :
    (let c0 : DOClass := { clsId := 0, name := "DataObject", fields := [] }
     let i0 := (from_dict c0 [("z", .vint 9)]).1
     let i1 := (update_from_dict c0 i0 [("a", .vint 1)]).1
     let i2 := (update_from_dict c0 i1 [("b", .vint 2)]).1
     to_dict c0 i2 =
        .ok [("z", .vint 9), ("a", .vint 1), ("b", .vint 2)] ∧
       pyDictEq [("z", .vint 9), ("a", .vint 1), ("b", .vint 2)]
         [("a", .vint 1), ("b", .vint 2)] = false) :=
  ⟨rfl, rfl⟩

/-- C2 amended: starting from a freshly constructed instance (empty
attribute bag, no retained original data) of a type whose fields are all
plain value fields, the two updates give `to_dict() == {"a":1,"b":2}`,
and sending `{"a":3,"b":2}` second gives `to_dict()["a"] == 3`; for every
instance of every type, the retained original data accumulates across the
two calls rather than being replaced, with colliding top-level keys
overwritten wholesale (last write wins). -/
theorem merge_repeated_decode_amended :
    (∀ (c : DOClass), (∀ p ∈ c.fields, p.2 = plainField) →
      (let i0 : Instance := { attrs := [], originaldata? := none }
       let i1 := (update_from_dict c i0 [("a", .vint 1)]).1
       let i2 := (update_from_dict c i1 [("b", .vint 2)]).1
       ∃ out, to_dict c i2 = .ok out ∧
         pyDictEq out [("a", .vint 1), ("b", .vint 2)] = true)) ∧
    (∀ (c : DOClass), (∀ p ∈ c.fields, p.2 = plainField) →
      (let i0 : Instance := { attrs := [], originaldata? := none }
       let i1 := (update_from_dict c i0 [("a", .vint 1)]).1
       let i2 := (update_from_dict c i1 [("a", .vint 3), ("b", .vint 2)]).1
       ∃ out, to_dict c i2 = .ok out ∧ alGet out "a" = some (.vint 3))) ∧
    (∀ (c : DOClass) (i : Instance),
      (let i1 := (update_from_dict c i [("a", .vint 1)]).1
       let i2 := (update_from_dict c i1 [("b", .vint 2)]).1
       ∃ od, i2.originaldata? = some od ∧ alGet od "a" = some (.vint 1) ∧
         alGet od "b" = some (.vint 2)) ∧
      (let i1 := (update_from_dict c i [("a", .vint 1)]).1
       let i2 := (update_from_dict c i1 [("a", .vint 3), ("b", .vint 2)]).1
       ∃ od, i2.originaldata? = some od ∧ alGet od "a" = some (.vint 3) ∧
         alGet od "b" = some (.vint 2))) := by
  have originalChain : ∀ (c : DOClass) (i : Instance) (d : Dict),
      ((update_from_dict c i d).1).originaldata? =
        some (alUpdate (i.originaldata?.getD []) d) := by
    intro c i d
    show (decodeLoop d c.fields (mergeOriginal i d)).1.originaldata? = _
    rw [decodeLoop_originaldata]
    rfl
  have mainPart : ∀ (c : DOClass), (∀ p ∈ c.fields, p.2 = plainField) →
      ∀ (d2 : Dict), (d2.map Prod.fst).Nodup →
      (let i0 : Instance := { attrs := [], originaldata? := none }
       let i1 := (update_from_dict c i0 [("a", .vint 1)]).1
       let i2 := (update_from_dict c i1 d2).1
       ∃ out, to_dict c i2 = .ok out ∧
         ∀ j, alGet out j =
           alGet (alUpdate (alUpdate [] [("a", .vint 1)]) d2) j) := by
    intro c hpf d2 hnd2
    intro i0 i1 i2
    have d1nd : ((([("a", .vint 1)] : Dict)).map Prod.fst).Nodup := by decide
    have hod1 : i1.originaldata? = some (alUpdate [] [("a", .vint 1)]) := by
      show ((update_from_dict c i0 [("a", .vint 1)]).1).originaldata? = _
      rw [originalChain]
      rfl
    have hod2 : i2.originaldata? =
        some (alUpdate (alUpdate [] [("a", .vint 1)]) d2) := by
      show ((update_from_dict c i1 d2).1).originaldata? = _
      rw [originalChain, hod1]
      rfl
    have hattr1 : ∀ k, getAttr i1 k =
        if k ∈ c.fields.map Prod.fst then alGet [("a", .vint 1)] k
        else none := by
      intro k
      have h := (plainField_decodeLoop [("a", .vint 1)] c.fields
        (mergeOriginal i0 [("a", .vint 1)]) hpf).2 k
      have hbase : getAttr (mergeOriginal i0 [("a", .vint 1)]) k = none := rfl
      rw [hbase] at h
      rw [show getAttr i1 k =
        getAttr (decodeLoop [("a", .vint 1)] c.fields
          (mergeOriginal i0 [("a", .vint 1)])).1 k from rfl, h]
      cases alGet ([("a", .vint 1)] : Dict) k <;> simp
    have hattr2 : ∀ k, getAttr i2 k =
        if k ∈ c.fields.map Prod.fst then
          match alGet d2 k with
          | some v => some v
          | none => getAttr i1 k
        else getAttr i1 k := by
      intro k
      have h := (plainField_decodeLoop d2 c.fields
        (mergeOriginal i1 d2) hpf).2 k
      have hbase : getAttr (mergeOriginal i1 d2) k = getAttr i1 k := rfl
      rw [hbase] at h
      exact h
    have hsub : ∀ k v, getAttr i2 k = some v →
        alGet (alUpdate (alUpdate [] [("a", .vint 1)]) d2) k = some v := by
      intro k v hv
      rw [hattr2 k] at hv
      rw [alGet_alUpdate _ _ _ hnd2]
      by_cases hkf : k ∈ c.fields.map Prod.fst
      · rw [if_pos hkf] at hv
        cases hd2k : alGet d2 k with
        | some w =>
          rw [hd2k] at hv
          exact hv
        | none =>
          rw [hd2k] at hv
          have hv2 : getAttr i1 k = some v := hv
          rw [hattr1 k, if_pos hkf] at hv2
          show alGet (alUpdate [] [("a", .vint 1)]) k = some v
          rw [alGet_alUpdate _ _ _ d1nd, hv2]
      · rw [if_neg hkf] at hv
        have hv2 : getAttr i1 k = some v := hv
        rw [hattr1 k, if_neg hkf] at hv2
        exact Option.noConfusion hv2
    obtain ⟨out, henc, hlook⟩ := plainField_encodeLoop i2 c.fields
      (alUpdate (alUpdate [] [("a", .vint 1)]) d2) hpf hsub
    refine ⟨out, ?_, hlook⟩
    show encodeLoop i2 c.fields (pyDeepcopy (i2.originaldata?.getD [])) = .ok out
    rw [hod2]
    exact henc
  refine ⟨?_, ?_, ?_⟩
  · intro c hpf
    obtain ⟨out, h1, h2⟩ :=
      mainPart c hpf [("b", .vint 2)] (by decide)
    exact ⟨out, h1, pyDictEq_of_lookup_eq _ _ h2⟩
  · intro c hpf
    obtain ⟨out, h1, h2⟩ :=
      mainPart c hpf [("a", .vint 3), ("b", .vint 2)] (by decide)
    refine ⟨out, h1, ?_⟩
    rw [h2 "a"]
    rfl
  · intro c i
    constructor
    · intro i1 i2
      refine ⟨alUpdate (i1.originaldata?.getD []) [("b", .vint 2)],
        originalChain c i1 [("b", .vint 2)], ?_, ?_⟩
      · rw [alGet_alUpdate _ _ _ (by decide)]
        show alGet (i1.originaldata?.getD []) "a" = some (.vint 1)
        have h1 : i1.originaldata? =
            some (alUpdate (i.originaldata?.getD []) [("a", .vint 1)]) :=
          originalChain c i [("a", .vint 1)]
        rw [h1]
        show alGet (alUpdate (i.originaldata?.getD []) [("a", .vint 1)]) "a" =
          some (.vint 1)
        rw [alGet_alUpdate _ _ _ (by decide)]
        rfl
      · rw [alGet_alUpdate _ _ _ (by decide)]
        rfl
    · intro i1 i2
      refine ⟨alUpdate (i1.originaldata?.getD [])
          [("a", .vint 3), ("b", .vint 2)],
        originalChain c i1 [("a", .vint 3), ("b", .vint 2)], ?_, ?_⟩
      · rw [alGet_alUpdate _ _ _ (by decide)]
        rfl
      · rw [alGet_alUpdate _ _ _ (by decide)]
        rfl

/-- A sample entity type with two plain fields, used by witnesses. -/
def wThing : DOClass :=
  { clsId := 2, name := "Thing", fields := [("a", plainField), ("b", plainField)] }

/-- A sample instance with an attribute and retained original data, used
by witnesses. -/
def wInst : Instance :=
  { attrs := [("q", .vint 7)], originaldata? := some [("z", .vint 9)] }

theorem merge_repeated_decode_amended_witness :
    ((∀ p ∈ wThing.fields, p.2 = plainField) ∧
      (∃ out, to_dict wThing
          ((update_from_dict wThing
            ((update_from_dict wThing { attrs := [], originaldata? := none }
              [("a", .vint 1)]).1) [("b", .vint 2)]).1) = .ok out ∧
        pyDictEq out [("a", .vint 1), ("b", .vint 2)] = true)) ∧
    (∃ out, to_dict wThing
        ((update_from_dict wThing
          ((update_from_dict wThing { attrs := [], originaldata? := none }
            [("a", .vint 1)]).1) [("a", .vint 3), ("b", .vint 2)]).1) = .ok out ∧
      alGet out "a" = some (.vint 3)) ∧
    (∃ od, ((update_from_dict wThing
        ((update_from_dict wThing wInst [("a", .vint 1)]).1)
        [("b", .vint 2)]).1).originaldata? = some od ∧
      alGet od "a" = some (.vint 1) ∧ alGet od "b" = some (.vint 2)) ∧
    (∃ od, ((update_from_dict wThing
        ((update_from_dict wThing wInst [("a", .vint 1)]).1)
        [("a", .vint 3), ("b", .vint 2)]).1).originaldata? = some od ∧
      alGet od "a" = some (.vint 3) ∧ alGet od "b" = some (.vint 2)) := by
  have hpf : ∀ p ∈ wThing.fields, p.2 = plainField := by
    intro p hp
    rcases List.mem_cons.mp hp with h | h
    · rw [h]
    · rw [List.mem_singleton.mp h]
  have h := merge_repeated_decode_amended
  exact ⟨⟨hpf, h.1 wThing hpf⟩, h.2.1 wThing hpf,
    (h.2.2 wThing wInst).1, (h.2.2 wThing wInst).2⟩

/-! ### Claims C3 and C4: field collection, revocation and precedence -/

theorem alGet_alDel {α : Type} (l : List (String × α)) (k j : String) :
    alGet (alDel l k) j = if j = k then none else alGet l j := by
  induction l with
  | nil => simp [alDel, alGet]
  | cons p rest ih =>
    obtain ⟨k', v'⟩ := p
    by_cases hk : k' = k
    · subst hk
      have hstep : alDel ((k', v') :: rest) k' = alDel rest k' := by
        simp [alDel]
      rw [hstep, ih]
      by_cases hj : j = k'
      · rw [if_pos hj, if_pos hj]
      · rw [if_neg hj, if_neg hj]
        show alGet rest j = if k' = j then some v' else alGet rest j
        rw [if_neg (fun h : k' = j => hj h.symm)]
    · have hstep : alDel ((k', v') :: rest) k = (k', v') :: alDel rest k := by
        simp [alDel, hk]
      rw [hstep]
      show (if k' = j then some v' else alGet (alDel rest k) j) = _
      by_cases hj : k' = j
      · rw [if_pos hj]
        subst hj
        rw [if_neg hk]
        simp [alGet]
      · rw [if_neg hj, ih]
        by_cases hjk : j = k
        · rw [if_pos hjk, if_pos hjk]
        · rw [if_neg hjk, if_neg hjk]
          simp [alGet, hj]

/-- The collector's scan never adds a name to the inherited `fields`
working set: a name absent from it stays absent. -/
theorem collectLoop_fields_none (attrs : List (String × DeclAttr))
    (fields newFields : List (String × FieldDesc)) (n : String)
    (h : alGet fields n = none) :
    alGet (collectLoop attrs fields newFields).1 n = none := by
  induction attrs generalizing fields newFields with
  | nil => exact h
  | cons p rest ih =>
    obtain ⟨m, a⟩ := p
    cases a with
    | propertyDecl f => exact ih fields (alSet newFields m f) h
    | plainDecl v =>
      refine ih _ newFields ?_
      by_cases hs : (alGet fields m).isSome
      · rw [if_pos hs, alGet_alDel]
        by_cases hnm : n = m
        · simp [hnm]
        · simp [hnm, h]
      · rw [if_neg hs]
        exact h

/-- The collector's scan leaves `new_fields` untouched at names that do
not occur in the class body. -/
theorem collectLoop_new_not_mem (attrs : List (String × DeclAttr))
    (fields newFields : List (String × FieldDesc)) (n : String)
    (h : n ∉ attrs.map Prod.fst) :
    alGet (collectLoop attrs fields newFields).2 n = alGet newFields n := by
  induction attrs generalizing fields newFields with
  | nil => rfl
  | cons p rest ih =>
    obtain ⟨m, a⟩ := p
    simp only [List.map_cons, List.mem_cons] at h
    push_neg at h
    cases a with
    | propertyDecl f =>
      show alGet (collectLoop rest fields (alSet newFields m f)).2 n =
        alGet newFields n
      rw [ih fields (alSet newFields m f) h.2, alGet_alSet]
      rw [if_neg (fun hh => h.1 hh.symm)]
    | plainDecl v => exact ih _ newFields h.2
/-- The collector's scan leaves the `fields` working set untouched at
names that do not occur in the class body. -/
theorem collectLoop_fields_not_mem (attrs : List (String × DeclAttr))
    (fields newFields : List (String × FieldDesc)) (n : String)
    (h : n ∉ attrs.map Prod.fst) :
    alGet (collectLoop attrs fields newFields).1 n = alGet fields n := by
  induction attrs generalizing fields newFields with
  | nil => rfl
  | cons p rest ih =>
    obtain ⟨m, a⟩ := p
    simp only [List.map_cons, List.mem_cons] at h
    push_neg at h
    cases a with
    | propertyDecl f => exact ih fields (alSet newFields m f) h.2
    | plainDecl v =>
      show alGet (collectLoop rest
        (if (alGet fields m).isSome then alDel fields m else fields)
        newFields).1 n = alGet fields n
      rw [ih _ newFields h.2]
      by_cases hs : (alGet fields m).isSome
      · rw [if_pos hs, alGet_alDel, if_neg h.1]
      · rw [if_neg hs]

/-- A name redeclared as a plain attribute is removed from the inherited
working set and never recorded in `new_fields`. -/
theorem collectLoop_plain_revokes (attrs : List (String × DeclAttr))
    (fields newFields : List (String × FieldDesc)) (n : String) (v : Value)
    (hnd : (attrs.map Prod.fst).Nodup)
    (hmem : (n, DeclAttr.plainDecl v) ∈ attrs)
    (hN : alGet newFields n = none) :
    alGet (collectLoop attrs fields newFields).1 n = none ∧
      alGet (collectLoop attrs fields newFields).2 n = none := by
  induction attrs generalizing fields newFields with
  | nil => simp at hmem
  | cons p rest ih =>
    obtain ⟨m, a⟩ := p
    simp only [List.map_cons, List.nodup_cons] at hnd
    rcases List.mem_cons.mp hmem with heq | hmem2
    · have hm : m = n := congrArg Prod.fst heq.symm
      have ha : a = DeclAttr.plainDecl v := congrArg Prod.snd heq.symm
      subst hm
      subst ha
      have hnot : m ∉ rest.map Prod.fst := hnd.1
      constructor
      · refine collectLoop_fields_none rest _ newFields m ?_
        by_cases hs : (alGet fields m).isSome
        · rw [if_pos hs, alGet_alDel, if_pos rfl]
        · rw [if_neg hs]
          cases hval : alGet fields m with
          | none => rfl
          | some w => rw [hval] at hs; exact absurd rfl hs
      · show alGet (collectLoop rest
          (if (alGet fields m).isSome then alDel fields m else fields)
          newFields).2 m = none
        rw [collectLoop_new_not_mem rest _ newFields m hnot]
        exact hN
    · have hmn : m ≠ n := by
        intro hmn
        subst hmn
        exact hnd.1 (List.mem_map.mpr ⟨(m, DeclAttr.plainDecl v), hmem2, rfl⟩)
      cases a with
      | propertyDecl f =>
        refine ih fields (alSet newFields m f) hnd.2 hmem2 ?_
        rw [alGet_alSet, if_neg hmn]
        exact hN
      | plainDecl w => exact ih _ newFields hnd.2 hmem2 hN

/-- C3: for every entity type `Child` built from bases and a class body
that redeclares an inherited field name `n` as a non-field attribute, `n`
is entirely absent fromed the assembled field set, and decoding a document
into an instance of such a type never populates attribute `n` through a
field. -/
theorem override_revocation
    (bases : List DOClass) (attrs : List (String × DeclAttr)) (n : String)
    (v : Value)
    (hnd : (attrs.map Prod.fst).Nodup)
    (hmem : (n, DeclAttr.plainDecl v) ∈ attrs) :
    alGet (collectFields bases attrs) n = none ∧
      ∀ (c : DOClass) (i : Instance) (data : Dict),
        c.fields = collectFields bases attrs →
        getAttr (update_from_dict c i data).1 n = getAttr i n := by
  have h := collectLoop_plain_revokes attrs (inheritedFields bases) [] n v
    hnd hmem rfl
  have habs : alGet (collectFields bases attrs) n = none := by
    show alGet (alUpdate (collectLoop attrs (inheritedFields bases) []).1
      (collectLoop attrs (inheritedFields bases) []).2) n = none
    rw [alGet_alUpdate_not_mem _ _ _ ((alGet_eq_none_iff _ _).mp h.2)]
    exact h.1
  refine ⟨habs, fun c i data hcf => ?_⟩
  show getAttr (decodeLoop data c.fields (mergeOriginal i data)).1 n =
    getAttr i n
  rw [decodeLoop_attr_not_mem]
  · rfl
  · rw [hcf]
    exact (alGet_eq_none_iff _ _).mp habs

/-- A base class whose fields are revoked or inherited in witnesses. -/
def wBase : DOClass :=
  { clsId := 3, name := "Base", fields := [("a", plainField), ("b", plainField)] }

theorem override_revocation_witness :
    (([("a", DeclAttr.plainDecl (.vint 0))].map
        (Prod.fst (α := String) (β := DeclAttr))).Nodup ∧
      ("a", DeclAttr.plainDecl (.vint 0)) ∈
        [("a", DeclAttr.plainDecl (.vint 0))]) ∧
    alGet (collectFields [wBase] [("a", DeclAttr.plainDecl (.vint 0))]) "a" =
      none ∧
    getAttr (update_from_dict
      { clsId := 4, name := "Child",
        fields := collectFields [wBase] [("a", DeclAttr.plainDecl (.vint 0))] }
      wInst [("a", .vint 5)]).1 "a" = getAttr wInst "a" := by
  have h := override_revocation [wBase] [("a", DeclAttr.plainDecl (.vint 0))]
    "a" (.vint 0) (by decide) (List.mem_singleton.mpr rfl)
  exact ⟨⟨by decide, List.mem_singleton.mpr rfl⟩, h.1,
    h.2 _ wInst [("a", .vint 5)] rfl⟩

theorem findSome?_append_of_some {α β : Type} (l1 l2 : List α)
    (g : α → Option β) (v : β) (h : l1.findSome? g = some v) :
    (l1 ++ l2).findSome? g = some v := by
  induction l1 with
  | nil => simp [List.findSome?] at h
  | cons x rest ih =>
    rw [List.cons_append, List.findSome?_cons]
    rw [List.findSome?_cons] at h
    cases hg : g x with
    | some w => rw [hg] at h; rw [h]
    | none =>
      rw [hg] at h
      exact ih h

theorem findSome?_append_of_none {α β : Type} (l1 l2 : List α)
    (g : α → Option β) (h : l1.findSome? g = none) :
    (l1 ++ l2).findSome? g = l2.findSome? g := by
  induction l1 with
  | nil => rfl
  | cons x rest ih =>
    rw [List.cons_append, List.findSome?_cons]
    rw [List.findSome?_cons] at h
    cases hg : g x with
    | some w => rw [hg] at h; exact Option.noConfusion h
    | none =>
      rw [hg] at h
      exact ih h

/-- Lookup in the bases' merged field sets: the last base (in declaration
order) that carries the name wins, since each `fields.update(base.fields)`
overwrites the names merged so far. -/
theorem alGet_inheritedFields_aux (bases : List DOClass)
    (init : List (String × FieldDesc)) (n : String)
    (hnd : ∀ b ∈ bases, (b.fields.map Prod.fst).Nodup) :
    alGet (bases.foldl (fun fs b => alUpdate fs b.fields) init) n =
      match bases.reverse.findSome? (fun b => alGet b.fields n) with
      | some f => some f
      | none => alGet init n := by
  induction bases generalizing init with
  | nil => rfl
  | cons b rest ih =>
    have hstep : (b :: rest).foldl (fun fs b => alUpdate fs b.fields) init =
        rest.foldl (fun fs b => alUpdate fs b.fields) (alUpdate init b.fields) :=
      rfl
    rw [hstep, ih _ (fun b hb => hnd b (List.mem_cons_of_mem _ hb))]
    rw [show (b :: rest).reverse = rest.reverse ++ [b] from by simp]
    cases hrest : rest.reverse.findSome? (fun b => alGet b.fields n) with
    | some f =>
      rw [findSome?_append_of_some _ _ _ _ hrest]
    | none =>
      rw [findSome?_append_of_none _ _ _ hrest]
      rw [alGet_alUpdate _ _ _ (hnd b (List.mem_cons_self _ _))]
      rw [show ([b] : List DOClass).findSome? (fun b => alGet b.fields n) =
        alGet b.fields n from by
          rw [List.findSome?_cons]
          cases alGet b.fields n <;> rfl]
      cases alGet b.fields n <;> rfl

/-- A field declared in the class body lands in `new_fields` under its
own name. -/
theorem collectLoop_prop_wins (attrs : List (String × DeclAttr))
    (fields newFields : List (String × FieldDesc)) (n : String) (f : FieldDesc)
    (hnd : (attrs.map Prod.fst).Nodup)
    (hmem : (n, DeclAttr.propertyDecl f) ∈ attrs) :
    alGet (collectLoop attrs fields newFields).2 n = some f := by
  induction attrs generalizing fields newFields with
  | nil => simp at hmem
  | cons p rest ih =>
    obtain ⟨m, a⟩ := p
    simp only [List.map_cons, List.nodup_cons] at hnd
    rcases List.mem_cons.mp hmem with heq | hmem2
    · have hm : m = n := congrArg Prod.fst heq.symm
      have ha : a = DeclAttr.propertyDecl f := congrArg Prod.snd heq.symm
      subst hm
      subst ha
      show alGet (collectLoop rest fields (alSet newFields m f)).2 m = some f
      rw [collectLoop_new_not_mem rest _ _ m hnd.1, alGet_alSet, if_pos rfl]
    · have hmn : m ≠ n := by
        intro hmn
        subst hmn
        exact hnd.1 (List.mem_map.mpr ⟨(m, DeclAttr.propertyDecl f), hmem2, rfl⟩)
      cases a with
      | propertyDecl g =>
        show alGet (collectLoop rest fields (alSet newFields m g)).2 n = some f
        exact ih fields (alSet newFields m g) hnd.2 hmem2
      | plainDecl w =>
        exact ih _ newFields hnd.2 hmem2

/-- The collector's scan keeps the keys of `new_fields` duplicate-free. -/
theorem collectLoop_new_nodup (attrs : List (String × DeclAttr))
    (fields newFields : List (String × FieldDesc))
    (hnd : (newFields.map Prod.fst).Nodup) :
    ((collectLoop attrs fields newFields).2.map Prod.fst).Nodup := by
  induction attrs generalizing fields newFields with
  | nil => exact hnd
  | cons p rest ih =>
    obtain ⟨m, a⟩ := p
    cases a with
    | propertyDecl g => exact ih fields _ (alSet_nodup_keys _ _ _ hnd)
    | plainDecl w => exact ih _ newFields hnd

/-- C4: the bases' field sets are merged in declaration order with
last-base-wins precedence on name collisions, and the type's own newly
declared fields are merged over the inherited set, a new declaration
winning over any inherited field of the same name. -/
theorem inheritance_merge_precedence :
    (∀ (bases : List DOClass) (attrs : List (String × DeclAttr)) (n : String),
      (∀ b ∈ bases, (b.fields.map Prod.fst).Nodup) →
      n ∉ attrs.map Prod.fst →
      alGet (collectFields bases attrs) n =
        bases.reverse.findSome? (fun b => alGet b.fields n)) ∧
    (∀ (bases : List DOClass) (attrs : List (String × DeclAttr)) (n : String)
        (f : FieldDesc),
      (attrs.map Prod.fst).Nodup →
      (n, DeclAttr.propertyDecl f) ∈ attrs →
      alGet (collectFields bases attrs) n = some f) := by
  constructor
  · intro bases attrs n hbnd hnot
    show alGet (alUpdate (collectLoop attrs (inheritedFields bases) []).1
      (collectLoop attrs (inheritedFields bases) []).2) n = _
    have hnew : alGet (collectLoop attrs (inheritedFields bases) []).2 n = none := by
      rw [collectLoop_new_not_mem attrs _ [] n hnot]
      rfl
    rw [alGet_alUpdate_not_mem _ _ _ ((alGet_eq_none_iff _ _).mp hnew)]
    rw [collectLoop_fields_not_mem attrs _ [] n hnot]
    show alGet (bases.foldl (fun fs b => alUpdate fs b.fields) []) n = _
    rw [alGet_inheritedFields_aux bases [] n hbnd]
    cases bases.reverse.findSome? (fun b => alGet b.fields n) <;> rfl
  · intro bases attrs n f hnd hmem
    show alGet (alUpdate (collectLoop attrs (inheritedFields bases) []).1
      (collectLoop attrs (inheritedFields bases) []).2) n = some f
    rw [alGet_alUpdate _ _ _ (collectLoop_new_nodup attrs _ [] (by simp))]
    rw [collectLoop_prop_wins attrs _ [] n f hnd hmem]

/-- A second base class sharing field name `k` with `wBase2a`, for the
last-base-wins witness. -/
def wBase2a : DOClass :=
  { clsId := 5, name := "B1", fields := [("k", plainField), ("o", plainField)] }

/-- See `wBase2a`. -/
def wBase2b : DOClass :=
  { clsId := 6, name := "B2",
    fields := [("k", { isField := false, decode? := none, encode? := none })] }

theorem inheritance_merge_precedence_witness :
    ((∀ b ∈ [wBase2a, wBase2b], (b.fields.map Prod.fst).Nodup) ∧
      "k" ∉ ([("c", DeclAttr.propertyDecl plainField)].map
        (Prod.fst (α := String) (β := DeclAttr))) ∧
      alGet (collectFields [wBase2a, wBase2b]
          [("c", DeclAttr.propertyDecl plainField)]) "k" =
        [wBase2a, wBase2b].reverse.findSome? (fun b => alGet b.fields "k")) ∧
    ((([("c", DeclAttr.propertyDecl plainField)].map
        (Prod.fst (α := String) (β := DeclAttr))).Nodup ∧
      ("c", DeclAttr.propertyDecl plainField) ∈
        [("c", DeclAttr.propertyDecl plainField)]) ∧
      alGet (collectFields [wBase2a, wBase2b]
          [("c", DeclAttr.propertyDecl plainField)]) "c" = some plainField) := by
  have hb : ∀ b ∈ [wBase2a, wBase2b], (b.fields.map Prod.fst).Nodup := by
    intro b hb
    rcases List.mem_cons.mp hb with h | h
    · rw [h]; decide
    · rw [List.mem_singleton.mp h]; decide
  refine ⟨⟨hb, by decide, ?_⟩, ⟨⟨by decide, List.mem_singleton.mpr rfl⟩, ?_⟩⟩
  · exact inheritance_merge_precedence.1 [wBase2a, wBase2b]
      [("c", DeclAttr.propertyDecl plainField)] "k" hb (by decide)
  · exact inheritance_merge_precedence.2 [wBase2a, wBase2b]
      [("c", DeclAttr.propertyDecl plainField)] "c" plainField (by decide)
      (List.mem_singleton.mpr rfl)

/-! ### Claim C5: equality semantics -/

theorem alGet_append {α : Type} (d1 d2 : List (String × α)) (k : String) :
    alGet (d1 ++ d2) k =
      match alGet d1 k with
      | some v => some v
      | none => alGet d2 k := by
  induction d1 with
  | nil => rfl
  | cons p rest ih =>
    obtain ⟨k', v'⟩ := p
    by_cases hk : k' = k
    · subst hk
      show (if k' = k' then some v' else alGet (rest ++ d2) k') = _
      rw [if_pos rfl]
      show _ = (match (if k' = k' then some v' else alGet rest k') with
        | some v => some v
        | none => alGet d2 k')
      rw [if_pos rfl]
    · show (if k' = k then some v' else alGet (rest ++ d2) k) = _
      rw [if_neg hk, ih]
      show _ = (match (if k' = k then some v' else alGet rest k) with
        | some v => some v
        | none => alGet d2 k)
      rw [if_neg hk]

/-- C5: `x == y` holds iff `x` and `y` are of the same concrete type and
every plain value-carrying field entry compares equal attribute values
(original data and non-field attributes excluded); `x != y` is the
logical negation; two instances built from documents differing only in an
unrecognized key are equal.  The hypothesis of the first part reflects
Python object identity: classes with the same identity are the same
class. -/
theorem equality_semantics :
    (∀ x y : TInstance, (x.cls.clsId = y.cls.clsId → x.cls = y.cls) →
      (dobjEq x y = true ↔ x.cls = y.cls ∧
        ∀ k f, (k, f) ∈ x.cls.fields → f.isField = true →
          getAttr x.inst k = getAttr y.inst k)) ∧
    (∀ x y : TInstance, dobjNe x y = true ↔ ¬ dobjEq x y = true) ∧
    (∀ (c : DOClass) (d : Dict) (x : String) (w : Value) (i1 : Instance),
      alGet c.fields x = none → alGet d x = none →
      from_dict c d = (i1, none) →
      ∃ i2, from_dict c (d ++ [(x, w)]) = (i2, none) ∧
        dobjEq { cls := c, inst := i1 } { cls := c, inst := i2 } = true) := by
  refine ⟨?_, ?_, ?_⟩
  · intro x y hident
    by_cases hid : x.cls.clsId = y.cls.clsId
    · have hcls : x.cls = y.cls := hident hid
      constructor
      · intro h
        refine ⟨hcls, fun k f hkf hf => ?_⟩
        rw [dobjEq, if_neg (fun hne => hne hid), List.all_eq_true] at h
        have h2 := h (k, f) hkf
        simp only [Bool.or_eq_true, Bool.not_eq_true'] at h2
        rcases h2 with h2 | h2
        · rw [hf] at h2
          exact Bool.noConfusion h2
        · exact (optBeq_iff_eq _ _).mp h2
      · rintro ⟨-, hall⟩
        rw [dobjEq, if_neg (fun hne => hne hid), List.all_eq_true]
        intro kf hkf
        by_cases hf : kf.2.isField
        · have := hall kf.1 kf.2 hkf hf
          simp [this, optBeq_refl]
        · simp only [Bool.or_eq_true, Bool.not_eq_true']
          left
          exact Bool.not_eq_true _ ▸ (Bool.eq_false_iff.mpr hf)
    · constructor
      · intro h
        rw [dobjEq, if_pos hid] at h
        exact Bool.noConfusion h
      · rintro ⟨hcls, -⟩
        exact absurd (congrArg DOClass.clsId hcls) hid
  · intro x y
    cases h : dobjEq x y <;> simp [dobjNe, h]
  · intro c d x w i1 hxf hxd hfd
    have hxkeys : x ∉ c.fields.map Prod.fst := (alGet_eq_none_iff _ _).mp hxf
    have hdoc : ∀ k ∈ c.fields.map Prod.fst,
        alGet d k = alGet (d ++ [(x, w)]) k := by
      intro k hk
      have hkx : ¬ x = k := fun hh => hxkeys (hh ▸ hk)
      rw [alGet_append]
      cases hdk : alGet d k with
      | some v => rfl
      | none =>
        show none = alGet [(x, w)] k
        show none = if x = k then some w else alGet ([] : Dict) k
        rw [if_neg hkx]
        rfl
    have hcong := decodeLoop_congr d (d ++ [(x, w)]) c.fields
      (mergeOriginal { attrs := [], originaldata? := none } d)
      (mergeOriginal { attrs := [], originaldata? := none } (d ++ [(x, w)]))
      hdoc rfl
    have hsnd : (from_dict c (d ++ [(x, w)])).2 = none := by
      show (decodeLoop (d ++ [(x, w)]) c.fields
        (mergeOriginal { attrs := [], originaldata? := none } (d ++ [(x, w)]))).2 = none
      rw [← hcong.2]
      show (from_dict c d).2 = none
      rw [hfd]
    have hpair : from_dict c (d ++ [(x, w)]) =
        ((from_dict c (d ++ [(x, w)])).1, none) := by
      have heta : from_dict c (d ++ [(x, w)]) =
          ((from_dict c (d ++ [(x, w)])).1, (from_dict c (d ++ [(x, w)])).2) := rfl
      rw [heta, hsnd]
    refine ⟨(from_dict c (d ++ [(x, w)])).1, hpair, ?_⟩
    have hattrs : i1.attrs = (from_dict c (d ++ [(x, w)])).1.attrs := by
      have h1 : i1.attrs = (from_dict c d).1.attrs := by rw [hfd]
      rw [h1]
      exact hcong.1
    rw [dobjEq, if_neg (fun hne => hne rfl), List.all_eq_true]
    intro kf hkf
    have hk : getAttr i1 kf.1 = getAttr (from_dict c (d ++ [(x, w)])).1 kf.1 := by
      show alGet i1.attrs kf.1 = _
      rw [hattrs]
      rfl
    simp [hk, optBeq_refl]

/-- A typed instance used by the equality witness. -/
def wX : TInstance :=
  { cls := wThing, inst := { attrs := [("a", .vint 1)], originaldata? := none } }

/-- Like `wX` but with different retained original data. -/
def wY : TInstance :=
  { cls := wThing,
    inst := { attrs := [("a", .vint 1)], originaldata? := some [("zz", .vint 0)] } }

theorem equality_semantics_witness :
    ((wX.cls.clsId = wY.cls.clsId → wX.cls = wY.cls) ∧
      (dobjEq wX wY = true ↔ wX.cls = wY.cls ∧
        ∀ k f, (k, f) ∈ wX.cls.fields → f.isField = true →
          getAttr wX.inst k = getAttr wY.inst k)) ∧
    (dobjNe wX { cls := wAsset, inst := wInst } = true ↔
      ¬ dobjEq wX { cls := wAsset, inst := wInst } = true) ∧
    ((alGet wAsset.fields "x" = none ∧
        alGet ([("name", Value.vstr "n")] : Dict) "x" = none ∧
        from_dict wAsset [("name", .vstr "n")] =
          ((from_dict wAsset [("name", .vstr "n")]).1, none)) ∧
      ∃ i2, from_dict wAsset ([("name", .vstr "n")] ++ [("x", .vint 1)]) =
          (i2, none) ∧
        dobjEq { cls := wAsset, inst := (from_dict wAsset [("name", .vstr "n")]).1 }
          { cls := wAsset, inst := i2 } = true) := by
  have h := equality_semantics
  refine ⟨⟨fun _ => rfl, h.1 wX wY (fun _ => rfl)⟩, h.2.1 _ _, ⟨⟨rfl, rfl, rfl⟩, ?_⟩⟩
  exact h.2.2 wAsset [("name", .vstr "n")] "x" (.vint 1)
    (from_dict wAsset [("name", .vstr "n")]).1 rfl rfl rfl

/-! ### Claim C6: discriminator dispatch -/

/-- C6: `subclass_with_constant_field` looks up the registered
`(field_name, tuple(value))` pair; on a hit it resolves the stored type
name through the by-name registry and returns that type; on a miss it
fails with a "no matching subclass" `ValueError` whose message names the
requesting type, the field name, and the value. -/
theorem discriminator_dispatch
    (byConstant : List (String × List (List Value × String)))
    (byName : List (String × DOClass))
    (clsName fieldname : String) (value : Value) (tup : List Value)
    (htup : pyTuple value = some tup) :
    (∀ clsname target,
      (alGet byConstant fieldname).bind (fun m => tupleGet m tup) = some clsname →
      alGet byName clsname = some target →
      subclass_with_constant_field byConstant byName clsName fieldname value =
        .ok target) ∧
    ((alGet byConstant fieldname).bind (fun m => tupleGet m tup) = none →
      subclass_with_constant_field byConstant byName clsName fieldname value =
        .error (.valueError (noSubclassMsg clsName fieldname value))) ∧
    noSubclassMsg clsName fieldname value =
      "No such subclass of " ++ clsName ++ " with field " ++
        pyQuote fieldname ++ " equivalent to " ++ pyRepr value := by
  refine ⟨?_, ?_, rfl⟩
  · intro clsname target h1 h2
    cases hm : alGet byConstant fieldname with
    | none =>
      rw [hm] at h1
      exact Option.noConfusion h1
    | some m =>
      rw [hm] at h1
      simp only [Option.some_bind] at h1
      simp only [subclass_with_constant_field, hm, htup, h1, find_by_name, h2]
  · intro h1
    cases hm : alGet byConstant fieldname with
    | none => simp only [subclass_with_constant_field, hm]
    | some m =>
      rw [hm] at h1
      simp only [Option.some_bind] at h1
      simp only [subclass_with_constant_field, hm, htup, h1]

/-- A registered discriminated subtype used by witnesses. -/
def wTypeA : DOClass := { clsId := 7, name := "TypeA", fields := [] }

/-- A constant-field registry used by witnesses. -/
def wByConstant : List (String × List (List Value × String)) :=
  [("kind", [([Value.vstr "a"], "TypeA")])]

/-- A by-name registry used by witnesses. -/
def wByName : List (String × DOClass) := [("TypeA", wTypeA)]

theorem discriminator_dispatch_witness :
    (pyTuple (.vstr "a") = some [Value.vstr "a"] ∧
      (alGet wByConstant "kind").bind
        (fun m => tupleGet m [Value.vstr "a"]) = some "TypeA" ∧
      alGet wByName "TypeA" = some wTypeA ∧
      subclass_with_constant_field wByConstant wByName "Asset" "kind"
        (.vstr "a") = .ok wTypeA) ∧
    (pyTuple (.vstr "b") = some [Value.vstr "b"] ∧
      (alGet wByConstant "kind").bind
        (fun m => tupleGet m [Value.vstr "b"]) = none ∧
      subclass_with_constant_field wByConstant wByName "Asset" "kind"
        (.vstr "b") =
        .error (.valueError (noSubclassMsg "Asset" "kind" (.vstr "b")))) := by
  have h1 := discriminator_dispatch wByConstant wByName "Asset" "kind"
    (.vstr "a") [Value.vstr "a"] rfl
  have h2 := discriminator_dispatch wByConstant wByName "Asset" "kind"
    (.vstr "b") [Value.vstr "b"] rfl
  exact ⟨⟨rfl, rfl, rfl, h1.1 "TypeA" wTypeA rfl rfl⟩,
    ⟨rfl, rfl, h2.2.1 rfl⟩⟩

/-! ### Claim C7: error propagation without recovery -/

/-- C7: a decode or encode error raised by an individual field propagates
unchanged to the caller; the loop aborts at the failing field, so the
instance is left in exactly the state the preceding fields produced, and
`_originaldata` has already absorbed the incoming document before any
field decode runs. -/
theorem error_propagation :
    (∀ (c : DOClass) (i : Instance) (data : Dict)
        (pre post : List (String × FieldDesc)) (k : String) (f : FieldDesc)
        (dec : Option Value → Except PyErr (Option Value)) (e : PyErr)
        (j : Instance),
      c.fields = pre ++ (k, f) :: post →
      f.decode? = some dec →
      decodeLoop data pre (mergeOriginal i data) = (j, none) →
      dec (alGet data k) = .error e →
      update_from_dict c i data = (j, some e) ∧
        j.originaldata? = some (alUpdate (i.originaldata?.getD []) data)) ∧
    (∀ (c : DOClass) (i : Instance) (pre post : List (String × FieldDesc))
        (k : String) (f : FieldDesc)
        (enc : Option Value → Except PyErr (Option Value)) (e : PyErr)
        (d1 : Dict),
      c.fields = pre ++ (k, f) :: post →
      f.encode? = some enc →
      encodeLoop i pre (pyDeepcopy (i.originaldata?.getD [])) = .ok d1 →
      enc (getAttr i k) = .error e →
      to_dict c i = .error e) := by
  constructor
  · intro c i data pre post k f dec e j hcf hdec hpre herr
    have hupd : update_from_dict c i data = (j, some e) := by
      show decodeLoop data c.fields (mergeOriginal i data) = (j, some e)
      rw [hcf, decodeLoop_append, hpre]
      show decodeLoop data ((k, f) :: post) j = (j, some e)
      simp only [decodeLoop, hdec, herr]
    refine ⟨hupd, ?_⟩
    have hj : j.originaldata? = (update_from_dict c i data).1.originaldata? := by
      rw [hupd]
    rw [hj]
    show (decodeLoop data c.fields (mergeOriginal i data)).1.originaldata? = _
    rw [decodeLoop_originaldata]
    rfl
  · intro c i pre post k f enc e d1 hcf henc hpre herr
    show encodeLoop i c.fields (pyDeepcopy (i.originaldata?.getD [])) = .error e
    rw [hcf, encodeLoop_append, hpre]
    show encodeLoop i ((k, f) :: post) d1 = .error e
    simp only [encodeLoop, henc, herr]

/-- A field descriptor whose hooks always raise, used by witnesses. -/
def wBadField : FieldDesc where
  isField := true
  decode? := some (fun _ => .error (.valueError "boom"))
  encode? := some (fun _ => .error (.valueError "boom"))

/-- An entity type with a well-behaved field before a failing one, used
by witnesses. -/
def wErrCls : DOClass :=
  { clsId := 8, name := "Err",
    fields := [("g", plainField), ("bad", wBadField)] }

theorem error_propagation_witness :
    (wErrCls.fields = [("g", plainField)] ++ ("bad", wBadField) :: [] ∧
      wBadField.decode? = some (fun _ => .error (.valueError "boom")) ∧
      decodeLoop [("g", .vint 1)] [("g", plainField)]
          (mergeOriginal wInst [("g", .vint 1)]) =
        ((decodeLoop [("g", .vint 1)] [("g", plainField)]
          (mergeOriginal wInst [("g", .vint 1)])).1, none) ∧
      update_from_dict wErrCls wInst [("g", .vint 1)] =
        ((decodeLoop [("g", .vint 1)] [("g", plainField)]
          (mergeOriginal wInst [("g", .vint 1)])).1,
         some (.valueError "boom")) ∧
      ((decodeLoop [("g", .vint 1)] [("g", plainField)]
          (mergeOriginal wInst [("g", .vint 1)])).1).originaldata? =
        some (alUpdate (wInst.originaldata?.getD []) [("g", .vint 1)])) ∧
    (wBadField.encode? = some (fun _ => .error (.valueError "boom")) ∧
      encodeLoop wInst [("g", plainField)]
          (pyDeepcopy (wInst.originaldata?.getD [])) = .ok [("z", .vint 9)] ∧
      to_dict wErrCls wInst = .error (.valueError "boom")) := by
  have h := error_propagation
  have h1 := h.1 wErrCls wInst [("g", .vint 1)] [("g", plainField)] []
    "bad" wBadField (fun _ => .error (.valueError "boom"))
    (.valueError "boom")
    (decodeLoop [("g", .vint 1)] [("g", plainField)]
      (mergeOriginal wInst [("g", .vint 1)])).1
    rfl rfl rfl rfl
  have h2 := h.2 wErrCls wInst [("g", plainField)] [] "bad" wBadField
    (fun _ => .error (.valueError "boom")) (.valueError "boom")
    [("z", .vint 9)] rfl rfl rfl rfl
  exact ⟨⟨rfl, rfl, rfl, h1.1, h1.2⟩, ⟨rfl, rfl, h2⟩⟩

/-! ### Claim C10: tuple conversion precedes the registry lookup -/

/-- C10 counterexample: Python evaluates the outer subscript
`classes_by_constant_field[fieldname]` of line 202 before `tuple(value)`,
so with an unregistered field name its `KeyError` is caught and becomes
the documented `ValueError` — `tuple()` never runs.  The non-iterable
value `7` thus produces the documented "no matching subclass" error, not
a `TypeError`, and a non-iterable value has reached the miss branch,
refuting the claim as stated. -/
theorem tuple_type_error_cex :
    pyTuple (.vint 7) = none ∧
    subclass_with_constant_field wByConstant wByName "Asset" "missing"
        (.vint 7) =
      .error (.valueError (noSubclassMsg "Asset" "missing" (.vint 7))) :=
  ⟨rfl, rfl⟩

/-- C10 amended: once the field name is registered in
`classes_by_constant_field`, `tuple()` is applied to the value before the
inner lookup, so a non-iterable value (e.g. an integer discriminator)
raises `TypeError` from the conversion itself rather than the documented
"no matching subclass" `ValueError`, and only iterable values can reach
the miss branch; with an unregistered field name, however, the outer
subscript's `KeyError` is converted to the documented `ValueError`
without `tuple()` being evaluated. -/
theorem tuple_type_error_amended
    (byConstant : List (String × List (List Value × String)))
    (byName : List (String × DOClass))
    (clsName fieldname : String) (value : Value) :
    (∀ m, alGet byConstant fieldname = some m → pyTuple value = none →
      subclass_with_constant_field byConstant byName clsName fieldname value =
        .error .typeError) ∧
    (∀ m msg, alGet byConstant fieldname = some m →
      subclass_with_constant_field byConstant byName clsName fieldname value =
        .error (.valueError msg) → (pyTuple value).isSome) ∧
    (alGet byConstant fieldname = none →
      subclass_with_constant_field byConstant byName clsName fieldname value =
        .error (.valueError (noSubclassMsg clsName fieldname value))) ∧
    (∀ n : Int, pyTuple (.vint n) = none) := by
  refine ⟨?_, ?_, ?_, fun n => rfl⟩
  · intro m hm h
    simp only [subclass_with_constant_field, hm, h]
  · intro m msg hm h
    cases ht : pyTuple value with
    | some t => rfl
    | none =>
      simp only [subclass_with_constant_field, hm, ht] at h
      injection h with h
      exact PyErr.noConfusion h
  · intro hm
    simp only [subclass_with_constant_field, hm]

theorem tuple_type_error_amended_witness :
    (alGet wByConstant "kind" = some [([Value.vstr "a"], "TypeA")] ∧
      pyTuple (.vint 7) = none ∧
      subclass_with_constant_field wByConstant wByName "Asset" "kind"
        (.vint 7) = .error .typeError) ∧
    (subclass_with_constant_field wByConstant wByName "Asset" "kind"
        (.vstr "b") =
        .error (.valueError (noSubclassMsg "Asset" "kind" (.vstr "b"))) ∧
      (pyTuple (Value.vstr "b")).isSome = true) ∧
    (alGet wByConstant "missing" = none ∧
      subclass_with_constant_field wByConstant wByName "Asset" "missing"
        (.vint 7) =
        .error (.valueError (noSubclassMsg "Asset" "missing" (.vint 7)))) := by
  have h1 := tuple_type_error_amended wByConstant wByName "Asset"
    "kind" (.vint 7)
  have h2 := tuple_type_error_amended wByConstant wByName "Asset"
    "kind" (.vstr "b")
  have h3 := tuple_type_error_amended wByConstant wByName "Asset"
    "missing" (.vint 7)
  exact ⟨⟨rfl, rfl, h1.1 _ rfl rfl⟩, ⟨rfl, h2.2.1 _ _ rfl rfl⟩,
    ⟨rfl, h3.2.2.1 rfl⟩⟩

/-! ### Heap model for deep copies and aliasing (claim C8)

Python documents are mutable objects on a heap; `copy.deepcopy` produces
a structurally equal tree of fresh objects, and mutating one object never
changes another.  Cells are allocated by appending to a list of cells;
mutation replaces a cell's content in place.  Immutable atoms are held
directly in a cell (Python shares them, but as they cannot be mutated the
sharing is unobservable and the model copies them). -/

abbrev Addr := Nat

/-- A heap cell: an atomic value, a dict mapping keys to child addresses,
or a list of child addresses. -/
inductive HVal where
  | hpure : Value → HVal
  | hdict : List (String × Addr) → HVal
  | hlist : List Addr → HVal
deriving DecidableEq

abbrev Heap := List HVal

/-- The child addresses a cell refers to. -/
def cellAddrs : HVal → List Addr
  | .hpure _ => []
  | .hdict es => es.map Prod.snd
  | .hlist xs => xs

/-- Every reference in the heap stays inside the heap. -/
def ClosedB (h : Heap) : Bool :=
  h.all fun v => (cellAddrs v).all fun b => decide (b < h.length)

mutual

/-- Read the value tree rooted at an address (fuelled; a cyclic structure
or exhausted fuel yields `none`). -/
def readV : Nat → Heap → Addr → Option Value
  | 0, _, _ => none
  | n + 1, h, a =>
    match h[a]? with
    | none => none
    | some (.hpure v) => some v
    | some (.hdict es) => (readEntries n h es).map Value.vdict
    | some (.hlist xs) => (readList n h xs).map Value.vlist

def readEntries :
    Nat → Heap → List (String × Addr) → Option (List (String × Value))
  | _, _, [] => some []
  | 0, _, _ :: _ => none
  | n + 1, h, (k, a) :: rest =>
    match readV n h a with
    | none => none
    | some v =>
      match readEntries n h rest with
      | none => none
      | some vs => some ((k, v) :: vs)

def readList : Nat → Heap → List Addr → Option (List Value)
  | _, _, [] => some []
  | 0, _, _ :: _ => none
  | n + 1, h, a :: rest =>
    match readV n h a with
    | none => none
    | some v =>
      match readList n h rest with
      | none => none
      | some vs => some (v :: vs)

end

mutual

/-- `copy.deepcopy`: recursively copy the object rooted at an address
into fresh cells, returning the extended heap and the copy's root. -/
def hcopy : Nat → Heap → Addr → Option (Heap × Addr)
  | 0, _, _ => none
  | n + 1, h, a =>
    match h[a]? with
    | none => none
    | some (.hpure v) => some (h ++ [.hpure v], h.length)
    | some (.hdict es) =>
      match hcopyEntries n h es with
      | none => none
      | some (h1, es1) => some (h1 ++ [.hdict es1], h1.length)
    | some (.hlist xs) =>
      match hcopyList n h xs with
      | none => none
      | some (h1, xs1) => some (h1 ++ [.hlist xs1], h1.length)

def hcopyEntries :
    Nat → Heap → List (String × Addr) →
      Option (Heap × List (String × Addr))
  | _, h, [] => some (h, [])
  | 0, _, _ :: _ => none
  | n + 1, h, (k, a) :: rest =>
    match hcopy n h a with
    | none => none
    | some (h1, a1) =>
      match hcopyEntries n h1 rest with
      | none => none
      | some (h2, rest1) => some (h2, (k, a1) :: rest1)

def hcopyList : Nat → Heap → List Addr → Option (Heap × List Addr)
  | _, h, [] => some (h, [])
  | 0, _, _ :: _ => none
  | n + 1, h, a :: rest =>
    match hcopy n h a with
    | none => none
    | some (h1, a1) =>
      match hcopyList n h1 rest with
      | none => none
      | some (h2, rest1) => some (h2, a1 :: rest1)

end

/-- A `DataObject` instance in the heap model: the attribute bag (pure,
as under the spec's field contract attribute values are fresh decoded
values) and the address of the retained `_originaldata` dict, absent
until the first decode. -/
structure HInstance where
  attrs : List (String × Value)
  origAddr? : Option Addr

/-- `update_from_dict` in the heap model (lines 156-176): create
`_originaldata` as a fresh empty dict if absent, deep-copy the incoming
document, merge the copy's entries into the `_originaldata` cell in
place, then run the decode loop on the incoming document's content.
`none` is a fuel/shape artefact of the model, not a Python behaviour. -/
def h_update_from_dict (fuel : Nat) (c : DOClass) (h : Heap)
    (self : HInstance) (dataAddr : Addr) :
    Option (Heap × HInstance × Option PyErr) :=
  let h0 : Heap :=
    match self.origAddr? with
    | none => h ++ [HVal.hdict []]
    | some _ => h
  let oa : Addr :=
    match self.origAddr? with
    | none => h.length
    | some a => a
  match hcopy fuel h0 dataAddr with
  | none => none
  | some (h1, copyAddr) =>
    match h1[copyAddr]? with
    | some (.hdict copyEs) =>
      match h1[oa]? with
      | some (.hdict oldEs) =>
        let h2 := h1.set oa (.hdict (alUpdate oldEs copyEs))
        match readV fuel h2 dataAddr with
        | some (.vdict dv) =>
          let r := decodeLoop dv c.fields
            { attrs := self.attrs, originaldata? := none }
          some (h2, { attrs := r.1.attrs, origAddr? := some oa }, r.2)
        | _ => none
      | _ => none
    | _ => none

/-- Write `document[k] = value` on a heap dict cell, allocating a fresh
cell for the encoded value. -/
def hDictSet (h : Heap) (r : Addr) (k : String) (a : Addr) : Option Heap :=
  match h[r]? with
  | some (.hdict es) => some (h.set r (.hdict (alSet es k a)))
  | _ => none

/-- The encode overlay of `to_dict` in the heap model (lines 144-146):
each write targets the working document's cell only. -/
def hEncodeLoop (i : Instance) :
    List (String × FieldDesc) → Heap → Addr →
      Option (Except PyErr (Heap × Addr))
  | [], h, r => some (.ok (h, r))
  | (k, f) :: rest, h, r =>
    match f.encode? with
    | none => hEncodeLoop i rest h r
    | some enc =>
      match enc (alGet i.attrs k) with
      | .error e => some (.error e)
      | .ok none => hEncodeLoop i rest h r
      | .ok (some v) =>
        match hDictSet (h ++ [.hpure v]) r k h.length with
        | none => none
        | some h2 => hEncodeLoop i rest h2 r

/-- `to_dict` in the heap model (lines 137-147): deep-copy
`_originaldata` (a fresh empty dict when absent), overlay the encodes on
the copy, and return its root. -/
def h_to_dict (fuel : Nat) (c : DOClass) (h : Heap) (self : HInstance) :
    Option (Except PyErr (Heap × Addr)) :=
  let init : Option (Heap × Addr) :=
    match self.origAddr? with
    | some oa => hcopy fuel h oa
    | none => some (h ++ [.hdict []], h.length)
  match init with
  | none => none
  | some (h1, r) =>
    hEncodeLoop { attrs := self.attrs, originaldata? := none } c.fields h1 r

/-- Cells at or above `base` refer only to cells between `base` and the
end of the heap: a freshly copied region is closed in itself. -/
def RegionClosed (base : Nat) (g : Heap) : Prop :=
  ∀ x v, base ≤ x → g[x]? = some v →
    ∀ b ∈ cellAddrs v, base ≤ b ∧ b < g.length

theorem pairEq {α β : Type} {a : α} {b : β} {c : α} {d : β}
    (h : (a, b) = (c, d)) : a = c ∧ b = d :=
  ⟨congrArg Prod.fst h, congrArg Prod.snd h⟩

/-- The fundamental property of `deepcopy`: it only appends to the heap
(existing cells are untouched), the copy's root is fresh, and the copied
region refers only to itself — a fully independent copy. -/
theorem copySpec : ∀ (n : Nat),
    (∀ (h : Heap) (a : Addr) (h1 : Heap) (c : Addr),
      hcopy n h a = some (h1, c) →
      (∀ b, b < h.length → h1[b]? = h[b]?) ∧ h.length ≤ h1.length ∧
        h.length ≤ c ∧ c < h1.length ∧ RegionClosed h.length h1) ∧
    (∀ (h : Heap) (es : List (String × Addr)) (h1 : Heap)
        (es1 : List (String × Addr)),
      hcopyEntries n h es = some (h1, es1) →
      (∀ b, b < h.length → h1[b]? = h[b]?) ∧ h.length ≤ h1.length ∧
        (∀ p ∈ es1, h.length ≤ p.2 ∧ p.2 < h1.length) ∧
        RegionClosed h.length h1) ∧
    (∀ (h : Heap) (xs : List Addr) (h1 : Heap) (xs1 : List Addr),
      hcopyList n h xs = some (h1, xs1) →
      (∀ b, b < h.length → h1[b]? = h[b]?) ∧ h.length ≤ h1.length ∧
        (∀ b ∈ xs1, h.length ≤ b ∧ b < h1.length) ∧
        RegionClosed h.length h1) := by
  have hemp : ∀ (h : Heap), RegionClosed h.length h := by
    intro h x v hx hv
    rw [List.getElem?_eq_none hx] at hv
    exact Option.noConfusion hv
  have hnilE : ∀ (n : Nat) (h : Heap) (h1 : Heap)
      (es1 : List (String × Addr)),
      hcopyEntries n h [] = some (h1, es1) →
      (∀ b, b < h.length → h1[b]? = h[b]?) ∧ h.length ≤ h1.length ∧
        (∀ p ∈ es1, h.length ≤ p.2 ∧ p.2 < h1.length) ∧
        RegionClosed h.length h1 := by
    intro n h h1 es1 heq
    cases n with
    | zero =>
      simp only [hcopyEntries] at heq
      injection heq with heq
      obtain ⟨rfl, rfl⟩ := pairEq heq
      exact ⟨fun b _ => rfl, Nat.le_refl _, by simp, hemp h⟩
    | succ n =>
      simp only [hcopyEntries] at heq
      injection heq with heq
      obtain ⟨rfl, rfl⟩ := pairEq heq
      exact ⟨fun b _ => rfl, Nat.le_refl _, by simp, hemp h⟩
  have hnilL : ∀ (n : Nat) (h : Heap) (h1 : Heap) (xs1 : List Addr),
      hcopyList n h [] = some (h1, xs1) →
      (∀ b, b < h.length → h1[b]? = h[b]?) ∧ h.length ≤ h1.length ∧
        (∀ b ∈ xs1, h.length ≤ b ∧ b < h1.length) ∧
        RegionClosed h.length h1 := by
    intro n h h1 xs1 heq
    cases n with
    | zero =>
      simp only [hcopyList] at heq
      injection heq with heq
      obtain ⟨rfl, rfl⟩ := pairEq heq
      exact ⟨fun b _ => rfl, Nat.le_refl _, by simp, hemp h⟩
    | succ n =>
      simp only [hcopyList] at heq
      injection heq with heq
      obtain ⟨rfl, rfl⟩ := pairEq heq
      exact ⟨fun b _ => rfl, Nat.le_refl _, by simp, hemp h⟩
  have alloccase : ∀ (h hA : Heap) (cell : HVal),
      (∀ b, b < h.length → hA[b]? = h[b]?) → h.length ≤ hA.length →
      (∀ b ∈ cellAddrs cell, h.length ≤ b ∧ b < hA.length) →
      RegionClosed h.length hA →
      (∀ b, b < h.length → (hA ++ [cell])[b]? = h[b]?) ∧
        h.length ≤ (hA ++ [cell]).length ∧
        h.length ≤ hA.length ∧ hA.length < (hA ++ [cell]).length ∧
        RegionClosed h.length (hA ++ [cell]) := by
    intro h hA cell hfr hlen hcell hrc
    have hlen3 : (hA ++ [cell]).length = hA.length + 1 := by simp
    have hget2 : (hA ++ [cell])[hA.length]? = some cell :=
      List.getElem?_concat_length hA cell
    refine ⟨?_, by omega, hlen, by omega, ?_⟩
    · intro b hb
      rw [List.getElem?_append_left (Nat.lt_of_lt_of_le hb hlen), hfr b hb]
    · intro x v hx hv b hb
      by_cases hxa : x < hA.length
      · rw [List.getElem?_append_left hxa] at hv
        obtain ⟨hc1, hc2⟩ := hrc x v hx hv b hb
        exact ⟨hc1, by rw [hlen3]; exact Nat.lt_succ_of_lt hc2⟩
      · have hxeq : x = hA.length := by
          by_contra hne
          have hge : (hA ++ [cell]).length ≤ x := by omega
          rw [List.getElem?_eq_none hge] at hv
          exact Option.noConfusion hv
        subst hxeq
        rw [hget2] at hv
        injection hv with hv
        subst hv
        obtain ⟨hc1, hc2⟩ := hcell b hb
        exact ⟨hc1, by rw [hlen3]; exact Nat.lt_succ_of_lt hc2⟩
  intro n
  induction n with
  | zero =>
    refine ⟨?_, ?_, ?_⟩
    · intro h a h1 c heq
      exact Option.noConfusion heq
    · intro h es h1 es1 heq
      cases es with
      | nil => exact hnilE 0 h h1 es1 heq
      | cons p rest => exact Option.noConfusion heq
    · intro h xs h1 xs1 heq
      cases xs with
      | nil => exact hnilL 0 h h1 xs1 heq
      | cons a rest => exact Option.noConfusion heq
  | succ n ih =>
    obtain ⟨ihV, ihE, ihL⟩ := ih
    refine ⟨?_, ?_, ?_⟩
    · intro h a h1 c heq
      cases hget : h[a]? with
      | none => simp only [hcopy, hget] at heq; exact Option.noConfusion heq
      | some cell =>
        cases cell with
        | hpure v =>
          simp only [hcopy, hget] at heq
          injection heq with heq
          obtain ⟨rfl, rfl⟩ := pairEq heq
          have key := alloccase h h (.hpure v) (fun b _ => rfl) (Nat.le_refl _)
            (by simp [cellAddrs]) (hemp h)
          exact ⟨key.1, key.2.1, key.2.2.1, key.2.2.2.1, key.2.2.2.2⟩
        | hdict es =>
          cases hce : hcopyEntries n h es with
          | none => simp only [hcopy, hget, hce] at heq; exact Option.noConfusion heq
          | some pr =>
            obtain ⟨hA, es1⟩ := pr
            simp only [hcopy, hget, hce] at heq
            injection heq with heq
            obtain ⟨rfl, rfl⟩ := pairEq heq
            obtain ⟨hfr, hlen, hmem, hrc⟩ := ihE h es hA es1 hce
            have key := alloccase h hA (.hdict es1) hfr hlen
              (by
                intro b hb
                simp only [cellAddrs, List.mem_map] at hb
                obtain ⟨p, hp, rfl⟩ := hb
                exact hmem p hp) hrc
            exact ⟨key.1, key.2.1, key.2.2.1, key.2.2.2.1, key.2.2.2.2⟩
        | hlist xs =>
          cases hcl2 : hcopyList n h xs with
          | none => simp only [hcopy, hget, hcl2] at heq; exact Option.noConfusion heq
          | some pr =>
            obtain ⟨hA, xs1⟩ := pr
            simp only [hcopy, hget, hcl2] at heq
            injection heq with heq
            obtain ⟨rfl, rfl⟩ := pairEq heq
            obtain ⟨hfr, hlen, hmem, hrc⟩ := ihL h xs hA xs1 hcl2
            have key := alloccase h hA (.hlist xs1) hfr hlen
              (fun b hb => hmem b hb) hrc
            exact ⟨key.1, key.2.1, key.2.2.1, key.2.2.2.1, key.2.2.2.2⟩
    · intro h es h1 es1 heq
      cases es with
      | nil => exact hnilE _ h h1 es1 heq
      | cons p rest =>
        obtain ⟨k, a⟩ := p
        cases hc1 : hcopy n h a with
        | none => simp only [hcopyEntries, hc1] at heq; exact Option.noConfusion heq
        | some pr1 =>
          obtain ⟨hA, a1⟩ := pr1
          cases hc2 : hcopyEntries n hA rest with
          | none => simp only [hcopyEntries, hc1, hc2] at heq; exact Option.noConfusion heq
          | some pr2 =>
            obtain ⟨h2, rest1⟩ := pr2
            simp only [hcopyEntries, hc1, hc2] at heq
            injection heq with heq
            obtain ⟨rfl, rfl⟩ := pairEq heq
            obtain ⟨fr1, len1, ha1, hb1, rc1⟩ := ihV h a hA a1 hc1
            obtain ⟨fr2, len2, mem2, rc2⟩ := ihE hA rest h2 rest1 hc2
            refine ⟨?_, by omega, ?_, ?_⟩
            · intro b hb
              rw [fr2 b (by omega), fr1 b hb]
            · intro p hp
              rcases List.mem_cons.mp hp with hp | hp
              · rw [hp]
                exact ⟨ha1, Nat.lt_of_lt_of_le hb1 len2⟩
              · obtain ⟨m1, m2⟩ := mem2 p hp
                exact ⟨Nat.le_trans len1 m1, m2⟩
            · intro x v hx hv b hb
              by_cases hxa : x < hA.length
              · rw [fr2 x hxa] at hv
                obtain ⟨c1, c2⟩ := rc1 x v hx hv b hb
                exact ⟨c1, Nat.lt_of_lt_of_le c2 len2⟩
              · obtain ⟨c1, c2⟩ := rc2 x v (by omega) hv b hb
                exact ⟨by omega, c2⟩
    · intro h xs h1 xs1 heq
      cases xs with
      | nil => exact hnilL _ h h1 xs1 heq
      | cons a rest =>
        cases hc1 : hcopy n h a with
        | none => simp only [hcopyList, hc1] at heq; exact Option.noConfusion heq
        | some pr1 =>
          obtain ⟨hA, a1⟩ := pr1
          cases hc2 : hcopyList n hA rest with
          | none => simp only [hcopyList, hc1, hc2] at heq; exact Option.noConfusion heq
          | some pr2 =>
            obtain ⟨h2, rest1⟩ := pr2
            simp only [hcopyList, hc1, hc2] at heq
            injection heq with heq
            obtain ⟨rfl, rfl⟩ := pairEq heq
            obtain ⟨fr1, len1, ha1, hb1, rc1⟩ := ihV h a hA a1 hc1
            obtain ⟨fr2, len2, mem2, rc2⟩ := ihL hA rest h2 rest1 hc2
            refine ⟨?_, by omega, ?_, ?_⟩
            · intro b hb
              rw [fr2 b (by omega), fr1 b hb]
            · intro b hb
              rcases List.mem_cons.mp hb with hb | hb
              · rw [hb]
                exact ⟨ha1, Nat.lt_of_lt_of_le hb1 len2⟩
              · obtain ⟨m1, m2⟩ := mem2 b hb
                exact ⟨Nat.le_trans len1 m1, m2⟩
            · intro x v hx hv b hb
              by_cases hxa : x < hA.length
              · rw [fr2 x hxa] at hv
                obtain ⟨c1, c2⟩ := rc1 x v hx hv b hb
                exact ⟨c1, Nat.lt_of_lt_of_le c2 len2⟩
              · obtain ⟨c1, c2⟩ := rc2 x v (by omega) hv b hb
                exact ⟨by omega, c2⟩

/-- Read locality: reads from a root inside a region that is closed under
child references and on which two heaps agree give the same result in
both heaps, whatever the rest of the heaps hold. -/
theorem readAgree : ∀ (m : Nat) (S : Nat → Prop) (g g' : Heap),
    (∀ x, S x → g[x]? = g'[x]?) →
    (∀ x v, S x → g'[x]? = some v → ∀ b ∈ cellAddrs v, S b) →
    (∀ a, S a → readV m g a = readV m g' a) ∧
    (∀ es, (∀ p ∈ es, S p.2) → readEntries m g es = readEntries m g' es) ∧
    (∀ xs, (∀ b ∈ xs, S b) → readList m g xs = readList m g' xs) := by
  intro m
  induction m with
  | zero =>
    intro S g g' hag hcl
    refine ⟨fun a _ => rfl, fun es _ => ?_, fun xs _ => ?_⟩
    · cases es <;> rfl
    · cases xs <;> rfl
  | succ m ih =>
    intro S g g' hag hcl
    obtain ⟨ihV, ihE, ihL⟩ := ih S g g' hag hcl
    refine ⟨?_, ?_, ?_⟩
    · intro a hSa
      show (match g[a]? with
        | none => none
        | some (.hpure v) => some v
        | some (.hdict es) => (readEntries m g es).map Value.vdict
        | some (.hlist xs) => (readList m g xs).map Value.vlist) =
        (match g'[a]? with
        | none => none
        | some (.hpure v) => some v
        | some (.hdict es) => (readEntries m g' es).map Value.vdict
        | some (.hlist xs) => (readList m g' xs).map Value.vlist)
      rw [hag a hSa]
      cases hga : g'[a]? with
      | none => rfl
      | some cell =>
        cases cell with
        | hpure v => rfl
        | hdict es =>
          have hch : ∀ p ∈ es, S p.2 := by
            intro p hp
            refine hcl a _ hSa hga p.2 ?_
            simp only [cellAddrs, List.mem_map]
            exact ⟨p, hp, rfl⟩
          show Option.map Value.vdict (readEntries m g es) =
            Option.map Value.vdict (readEntries m g' es)
          rw [ihE es hch]
        | hlist xs =>
          have hch : ∀ b ∈ xs, S b := fun b hb => hcl a _ hSa hga b hb
          show Option.map Value.vlist (readList m g xs) =
            Option.map Value.vlist (readList m g' xs)
          rw [ihL xs hch]
    · intro es hes
      cases es with
      | nil => rfl
      | cons p rest =>
        obtain ⟨k, a⟩ := p
        show (match readV m g a with
          | none => none
          | some v =>
            match readEntries m g rest with
            | none => none
            | some vs => some ((k, v) :: vs)) =
          (match readV m g' a with
          | none => none
          | some v =>
            match readEntries m g' rest with
            | none => none
            | some vs => some ((k, v) :: vs))
        rw [ihV a (hes (k, a) (List.mem_cons_self _ _)),
          ihE rest (fun q hq => hes q (List.mem_cons_of_mem _ hq))]
    · intro xs hxs
      cases xs with
      | nil => rfl
      | cons a rest =>
        show (match readV m g a with
          | none => none
          | some v =>
            match readList m g rest with
            | none => none
            | some vs => some (v :: vs)) =
          (match readV m g' a with
          | none => none
          | some v =>
            match readList m g' rest with
            | none => none
            | some vs => some (v :: vs))
        rw [ihV a (hxs a (List.mem_cons_self _ _)),
          ihL rest (fun b hb => hxs b (List.mem_cons_of_mem _ hb))]

/-- Unpacking the boolean closedness check. -/
theorem closedB_spec (h : Heap) (hcl : ClosedB h = true) :
    ∀ (x : Nat) (v : HVal), h[x]? = some v →
      ∀ b ∈ cellAddrs v, b < h.length := by
  intro x v hx b hb
  have hmem : v ∈ h := by
    have hlt : x < h.length := by
      by_contra hge
      push_neg at hge
      rw [List.getElem?_eq_none hge] at hx
      exact Option.noConfusion hx
    exact List.getElem?_mem hx
  rw [ClosedB, List.all_eq_true] at hcl
  have h2 := hcl v hmem
  rw [List.all_eq_true] at h2
  simpa using h2 b hb

/-- The encode overlay keeps the document root, only appends cells, and
only modifies the root cell. -/
theorem hEncodeLoop_frame (i : Instance) (fs : List (String × FieldDesc)) :
    ∀ (h1 : Heap) (r : Addr) (h' : Heap) (r' : Addr),
      hEncodeLoop i fs h1 r = some (.ok (h', r')) →
      r' = r ∧ h1.length ≤ h'.length ∧
        ∀ b, b < h1.length → b ≠ r → h'[b]? = h1[b]? := by
  induction fs with
  | nil =>
    intro h1 r h' r' heq
    simp only [hEncodeLoop] at heq
    injection heq with heq
    injection heq with heq
    obtain ⟨rfl, rfl⟩ := pairEq heq
    exact ⟨rfl, Nat.le_refl _, fun b _ _ => rfl⟩
  | cons kf rest ih =>
    intro h1 r h' r' heq
    obtain ⟨k, f⟩ := kf
    cases hfe : f.encode? with
    | none =>
      simp only [hEncodeLoop, hfe] at heq
      exact ih h1 r h' r' heq
    | some enc =>
      cases henc : enc (alGet i.attrs k) with
      | error e =>
        simp only [hEncodeLoop, hfe, henc] at heq
        injection heq with heq
        exact Except.noConfusion heq
      | ok res =>
        cases res with
        | none =>
          simp only [hEncodeLoop, hfe, henc] at heq
          exact ih h1 r h' r' heq
        | some v =>
          cases hds : hDictSet (h1 ++ [.hpure v]) r k h1.length with
          | none =>
            simp only [hEncodeLoop, hfe, henc, hds] at heq
            exact Option.noConfusion heq
          | some h2 =>
            simp only [hEncodeLoop, hfe, henc, hds] at heq
            obtain ⟨hr', hlen, hfr⟩ := ih h2 r h' r' heq
            have hget : ∃ es, (h1 ++ [HVal.hpure v])[r]? = some (.hdict es) ∧
                h2 = (h1 ++ [HVal.hpure v]).set r
                  (.hdict (alSet es k h1.length)) := by
              revert hds
              rw [hDictSet]
              cases hrg : (h1 ++ [HVal.hpure v])[r]? with
              | none => intro hds; exact Option.noConfusion hds
              | some cell =>
                cases cell with
                | hpure w => intro hds; exact Option.noConfusion hds
                | hdict es =>
                  intro hds
                  injection hds with hds
                  exact ⟨es, rfl, hds.symm⟩
                | hlist xs => intro hds; exact Option.noConfusion hds
            obtain ⟨es, hrg, rfl⟩ := hget
            have hlen2 : h1.length ≤
                ((h1 ++ [HVal.hpure v]).set r
                  (.hdict (alSet es k h1.length))).length := by
              simp
            refine ⟨hr', by omega, ?_⟩
            · intro b hb hbr
              rw [hfr b (by simpa using Nat.lt_of_lt_of_le hb (by simp)) hbr]
              rw [List.getElem?_set_ne (fun hh => hbr hh.symm)]
              exact List.getElem?_append_left hb

theorem mem_alSet {α : Type} (l : List (String × α)) (k : String) (v : α) :
    ∀ (q : String × α), q ∈ alSet l k v → q = (k, v) ∨ q ∈ l := by
  induction l with
  | nil =>
    intro q hq
    simp only [alSet, List.mem_singleton] at hq
    exact Or.inl hq
  | cons p rest ih =>
    obtain ⟨k', v'⟩ := p
    intro q hq
    by_cases hk : k' = k
    · have halset : alSet ((k', v') :: rest) k v = (k, v) :: rest := by
        simp [alSet, hk]
      rw [halset, List.mem_cons] at hq
      rcases hq with hq | hq
      · exact Or.inl hq
      · exact Or.inr (List.mem_cons_of_mem _ hq)
    · simp only [alSet, if_neg hk, List.mem_cons] at hq
      rcases hq with hq | hq
      · exact Or.inr (List.mem_cons.mpr (Or.inl hq))
      · rcases ih q hq with hq | hq
        · exact Or.inl hq
        · exact Or.inr (List.mem_cons_of_mem _ hq)

theorem mem_alUpdate {α : Type} (l : List (String × α)) :
    ∀ (acc : List (String × α)) (q : String × α),
      q ∈ alUpdate acc l → q ∈ acc ∨ q ∈ l := by
  induction l with
  | nil => exact fun acc q hq => Or.inl hq
  | cons p rest ih =>
    obtain ⟨k, v⟩ := p
    intro acc q hq
    have hstep : alUpdate acc ((k, v) :: rest) = alUpdate (alSet acc k v) rest :=
      rfl
    rw [hstep] at hq
    rcases ih (alSet acc k v) q hq with hq2 | hq2
    · rcases mem_alSet acc k v q hq2 with hq3 | hq3
      · exact Or.inr (hq3 ▸ List.mem_cons_self _ _)
      · exact Or.inl hq3
    · exact Or.inr (List.mem_cons_of_mem _ hq2)

/-- The in-place merge step of `update_from_dict`, after the deep copy:
mutating any cell outside the separation predicate `S` (which holds the
`_originaldata` root and everything it reaches) does not change what is
read from the `_originaldata` root. -/
theorem updateCore_read_frame (fuel : Nat) (h0 : Heap) (dataAddr : Addr)
    (h1 : Heap) (copyAddr : Addr) (copyEs oldEs : List (String × Addr))
    (S : Nat → Prop) (oa b : Nat)
    (hcp : hcopy fuel h0 dataAddr = some (h1, copyAddr))
    (hcg : h1[copyAddr]? = some (.hdict copyEs))
    (hog : h1[oa]? = some (.hdict oldEs))
    (hSoa : S oa)
    (hSlt : ∀ x, S x → x < h0.length)
    (hScl : ∀ (x : Nat) (v : HVal), S x → h0[x]? = some v →
      ∀ y ∈ cellAddrs v, S y)
    (hbS : ¬ S b) (hblt : b < h0.length) :
    ∀ (w : HVal) (m : Nat),
      readV m ((h1.set oa (.hdict (alUpdate oldEs copyEs))).set b w) oa =
      readV m (h1.set oa (.hdict (alUpdate oldEs copyEs))) oa := by
  obtain ⟨fr, len, hca1, hca2, rc⟩ :=
    (copySpec fuel).1 h0 dataAddr h1 copyAddr hcp
  have hoalt : oa < h0.length := hSlt oa hSoa
  have hh0oa : h0[oa]? = some (.hdict oldEs) := by
    rw [← fr oa hoalt]; exact hog
  have hOld : ∀ p ∈ oldEs, S p.2 := by
    intro p hp
    refine hScl oa _ hSoa hh0oa p.2 ?_
    simp only [cellAddrs, List.mem_map]
    exact ⟨p, hp, rfl⟩
  have hCopyCh : ∀ p ∈ copyEs, h0.length ≤ p.2 ∧ p.2 < h1.length := by
    intro p hp
    refine rc copyAddr _ hca1 hcg p.2 ?_
    simp only [cellAddrs, List.mem_map]
    exact ⟨p, hp, rfl⟩
  intro w m
  have hagree : ∀ x, (S x ∨ h0.length ≤ x) →
      ((h1.set oa (.hdict (alUpdate oldEs copyEs))).set b w)[x]? =
      (h1.set oa (.hdict (alUpdate oldEs copyEs)))[x]? := by
    intro x hx
    have hxb : b ≠ x := by
      rcases hx with hx | hx
      · exact fun he => hbS (he ▸ hx)
      · omega
    exact List.getElem?_set_ne hxb
  have hclosure : ∀ (x : Nat) (v : HVal), (S x ∨ h0.length ≤ x) →
      (h1.set oa (.hdict (alUpdate oldEs copyEs)))[x]? = some v →
      ∀ y ∈ cellAddrs v, S y ∨ h0.length ≤ y := by
    intro x v hx hxv y hy
    by_cases hxoa : x = oa
    · subst hxoa
      have hset : (h1.set x (.hdict (alUpdate oldEs copyEs)))[x]? =
          some (.hdict (alUpdate oldEs copyEs)) :=
        List.getElem?_set_self (Nat.lt_of_lt_of_le (hSlt x (by
          rcases hx with hx | hx
          · exact hx
          · omega)) len)
      rw [hset] at hxv
      injection hxv with hxv
      subst hxv
      simp only [cellAddrs, List.mem_map] at hy
      obtain ⟨p, hp, rfl⟩ := hy
      rcases mem_alUpdate copyEs oldEs p hp with hmem | hmem
      · exact Or.inl (hOld p hmem)
      · exact Or.inr (hCopyCh p hmem).1
    · have hx1 : (h1.set oa (.hdict (alUpdate oldEs copyEs)))[x]? = h1[x]? :=
        List.getElem?_set_ne (fun hh => hxoa hh.symm)
      rcases hx with hxS | hxge
      · have hxlt : x < h0.length := hSlt x hxS
        rw [hx1, fr x hxlt] at hxv
        exact Or.inl (hScl x v hxS hxv y hy)
      · rw [hx1] at hxv
        obtain ⟨c1, _⟩ := rc x v hxge hxv y hy
        exact Or.inr c1
  obtain ⟨rv, _, _⟩ := readAgree m (fun x => S x ∨ h0.length ≤ x)
    ((h1.set oa (.hdict (alUpdate oldEs copyEs))).set b w)
    (h1.set oa (.hdict (alUpdate oldEs copyEs))) hagree hclosure
  exact rv oa (Or.inl hSoa)

/-- C8: encode frame property.  Part 1 (`to_dict`, lines 137-147): on a
closed heap, `to_dict` works on a deep copy — every pre-existing cell is
unchanged, the returned document root is fresh, and the retained
`_originaldata` reads back exactly as before, even after any fresh cell
(in particular the returned document) is mutated.  Part 2
(`update_from_dict`, lines 169-172, first decode): `_originaldata` is
created fresh and filled from a deep copy of the incoming document, so
mutating any caller-held cell afterwards leaves its contents unchanged.
Part 3 (`update_from_dict`, later decodes): if the retained
`_originaldata` region is separated from a caller-held cell `b`, then
after the merge mutating `b` still leaves its contents unchanged. -/
theorem encode_frame_property :
    (∀ (fuel : Nat) (c : DOClass) (h : Heap) (self : HInstance)
        (g : Heap) (r : Addr),
      ClosedB h = true →
      h_to_dict fuel c h self = some (.ok (g, r)) →
      (∀ b, b < h.length → g[b]? = h[b]?) ∧
      h.length ≤ r ∧
      ∀ oa, self.origAddr? = some oa → oa < h.length →
        (∀ m, readV m g oa = readV m h oa) ∧
        (∀ (b : Nat) (w : HVal) (m : Nat), h.length ≤ b →
          readV m (g.set b w) oa = readV m h oa)) ∧
    (∀ (fuel : Nat) (c : DOClass) (h : Heap) (self : HInstance)
        (dataAddr : Addr) (g : Heap) (self2 : HInstance) (err : Option PyErr),
      self.origAddr? = none →
      h_update_from_dict fuel c h self dataAddr = some (g, self2, err) →
      self2.origAddr? = some h.length ∧
      ∀ (b : Nat) (w : HVal) (m : Nat), b < h.length →
        readV m (g.set b w) h.length = readV m g h.length) ∧
    (∀ (fuel : Nat) (c : DOClass) (h : Heap) (self : HInstance)
        (dataAddr : Addr) (g : Heap) (self2 : HInstance) (err : Option PyErr)
        (S : Nat → Prop) (oa b : Nat),
      self.origAddr? = some oa →
      S oa →
      (∀ x, S x → x < h.length) →
      (∀ (x : Nat) (v : HVal), S x → h[x]? = some v →
        ∀ y ∈ cellAddrs v, S y) →
      ¬ S b → b < h.length →
      h_update_from_dict fuel c h self dataAddr = some (g, self2, err) →
      self2.origAddr? = some oa ∧
      ∀ (w : HVal) (m : Nat), readV m (g.set b w) oa = readV m g oa) := by
  refine ⟨?_, ?_, ?_⟩
  · -- part 1: to_dict
    intro fuel c h self g r hcl hres
    have hclo : ∀ (x : Nat) (v : HVal), x < h.length → h[x]? = some v →
        ∀ bb ∈ cellAddrs v, bb < h.length :=
      fun x v _ hv => closedB_spec h hcl x v hv
    cases horig : self.origAddr? with
    | some oa0 =>
      simp only [h_to_dict, horig] at hres
      cases hcp : hcopy fuel h oa0 with
      | none =>
        simp only [hcp] at hres
        exact Option.noConfusion hres
      | some pr =>
        obtain ⟨h1, r0⟩ := pr
        simp only [hcp] at hres
        obtain ⟨fr1, len1, hcle, hclt, rc⟩ :=
          (copySpec fuel).1 h oa0 h1 r0 hcp
        obtain ⟨hr0, hlen2, fr2⟩ :=
          hEncodeLoop_frame { attrs := self.attrs, originaldata? := none }
            c.fields h1 r0 g r hres
        subst hr0
        have hframe : ∀ b, b < h.length → g[b]? = h[b]? := by
          intro b hb
          rw [fr2 b (Nat.lt_of_lt_of_le hb len1) (by omega)]
          exact fr1 b hb
        refine ⟨hframe, hcle, ?_⟩
        intro oa hoa hoalt
        injection hoa with hoa
        subst hoa
        constructor
        · intro m
          obtain ⟨rv, _, _⟩ :=
            readAgree m (fun x => x < h.length) g h hframe hclo
          exact rv _ hoalt
        · intro b w m hb
          have hag : ∀ x, x < h.length → (g.set b w)[x]? = h[x]? := by
            intro x hx
            rw [List.getElem?_set_ne (by omega : b ≠ x)]
            exact hframe x hx
          obtain ⟨rv, _, _⟩ :=
            readAgree m (fun x => x < h.length) (g.set b w) h hag hclo
          exact rv _ hoalt
    | none =>
      simp only [h_to_dict, horig] at hres
      obtain ⟨hr0, hlen2, fr2⟩ :=
        hEncodeLoop_frame { attrs := self.attrs, originaldata? := none }
          c.fields (h ++ [HVal.hdict []]) h.length g r hres
      subst hr0
      refine ⟨?_, Nat.le_refl _, ?_⟩
      · intro b hb
        have hlb : b < (h ++ [HVal.hdict []]).length := by
          simp only [List.length_append, List.length_singleton]
          omega
        rw [fr2 b hlb (by omega)]
        exact List.getElem?_append_left hb
      · intro oa hoa hoalt
        exact Option.noConfusion hoa
  · -- part 2: first update_from_dict
    intro fuel c h self dataAddr g self2 err horig hres
    simp only [h_update_from_dict, horig] at hres
    cases hcp : hcopy fuel (h ++ [HVal.hdict []]) dataAddr with
    | none =>
      simp only [hcp] at hres
      exact Option.noConfusion hres
    | some pr =>
      obtain ⟨h1, copyAddr⟩ := pr
      simp only [hcp] at hres
      cases hcg : h1[copyAddr]? with
      | none =>
        simp only [hcg] at hres
        exact Option.noConfusion hres
      | some cell =>
        cases cell with
        | hpure v =>
          simp only [hcg] at hres
          exact Option.noConfusion hres
        | hlist xs =>
          simp only [hcg] at hres
          exact Option.noConfusion hres
        | hdict copyEs =>
          simp only [hcg] at hres
          cases hog : h1[h.length]? with
          | none =>
            simp only [hog] at hres
            exact Option.noConfusion hres
          | some cell2 =>
            cases cell2 with
            | hpure v =>
              simp only [hog] at hres
              exact Option.noConfusion hres
            | hlist xs =>
              simp only [hog] at hres
              exact Option.noConfusion hres
            | hdict oldEs =>
              simp only [hog] at hres
              cases hrd : readV fuel
                  (h1.set h.length (.hdict (alUpdate oldEs copyEs)))
                  dataAddr with
              | none =>
                simp only [hrd] at hres
                exact Option.noConfusion hres
              | some v =>
                cases v with
                | vnull =>
                  simp only [hrd] at hres
                  exact Option.noConfusion hres
                | vbool bb =>
                  simp only [hrd] at hres
                  exact Option.noConfusion hres
                | vint ii =>
                  simp only [hrd] at hres
                  exact Option.noConfusion hres
                | vstr ss =>
                  simp only [hrd] at hres
                  exact Option.noConfusion hres
                | vlist ll =>
                  simp only [hrd] at hres
                  exact Option.noConfusion hres
                | vdict dv =>
                  simp only [hrd] at hres
                  injection hres with hres
                  obtain ⟨hh, hrest⟩ := pairEq hres
                  obtain ⟨hi, he⟩ := pairEq hrest
                  subst hh
                  subst hi
                  refine ⟨rfl, ?_⟩
                  intro b w m hb
                  obtain ⟨fr1, len1, hcle, hclt, rc⟩ :=
                    (copySpec fuel).1 (h ++ [HVal.hdict []]) dataAddr h1
                      copyAddr hcp
                  have h0len : h.length < (h ++ [HVal.hdict []]).length := by
                    simp only [List.length_append, List.length_singleton]
                    omega
                  have hh0 : h1[h.length]? =
                      (h ++ [HVal.hdict []])[h.length]? := fr1 _ h0len
                  have hcat : (h ++ [HVal.hdict []])[h.length]? =
                      some (HVal.hdict []) :=
                    List.getElem?_concat_length _ _
                  rw [hog, hcat] at hh0
                  injection hh0 with hh0
                  injection hh0 with hh0
                  subst hh0
                  exact updateCore_read_frame fuel (h ++ [HVal.hdict []])
                    dataAddr h1 copyAddr copyEs []
                    (fun x => x = h.length) h.length b hcp hcg hog rfl
                    (by intro x hx; subst hx; exact h0len)
                    (by
                      intro x v hx hv y hy
                      subst hx
                      rw [hcat] at hv
                      injection hv with hv
                      subst hv
                      exact absurd hy (List.not_mem_nil y))
                    (by omega) (by
                      simp only [List.length_append, List.length_singleton]
                      omega) w m
  · -- part 3: later update_from_dict with separation
    intro fuel c h self dataAddr g self2 err S oa b horig hSoa hSlt hScl
      hbS hblt hres
    simp only [h_update_from_dict, horig] at hres
    cases hcp : hcopy fuel h dataAddr with
    | none =>
      simp only [hcp] at hres
      exact Option.noConfusion hres
    | some pr =>
      obtain ⟨h1, copyAddr⟩ := pr
      simp only [hcp] at hres
      cases hcg : h1[copyAddr]? with
      | none =>
        simp only [hcg] at hres
        exact Option.noConfusion hres
      | some cell =>
        cases cell with
        | hpure v =>
          simp only [hcg] at hres
          exact Option.noConfusion hres
        | hlist xs =>
          simp only [hcg] at hres
          exact Option.noConfusion hres
        | hdict copyEs =>
          simp only [hcg] at hres
          cases hog : h1[oa]? with
          | none =>
            simp only [hog] at hres
            exact Option.noConfusion hres
          | some cell2 =>
            cases cell2 with
            | hpure v =>
              simp only [hog] at hres
              exact Option.noConfusion hres
            | hlist xs =>
              simp only [hog] at hres
              exact Option.noConfusion hres
            | hdict oldEs =>
              simp only [hog] at hres
              cases hrd : readV fuel
                  (h1.set oa (.hdict (alUpdate oldEs copyEs)))
                  dataAddr with
              | none =>
                simp only [hrd] at hres
                exact Option.noConfusion hres
              | some v =>
                cases v with
                | vnull =>
                  simp only [hrd] at hres
                  exact Option.noConfusion hres
                | vbool bb =>
                  simp only [hrd] at hres
                  exact Option.noConfusion hres
                | vint ii =>
                  simp only [hrd] at hres
                  exact Option.noConfusion hres
                | vstr ss =>
                  simp only [hrd] at hres
                  exact Option.noConfusion hres
                | vlist ll =>
                  simp only [hrd] at hres
                  exact Option.noConfusion hres
                | vdict dv =>
                  simp only [hrd] at hres
                  injection hres with hres
                  obtain ⟨hh, hrest⟩ := pairEq hres
                  obtain ⟨hi, he⟩ := pairEq hrest
                  subst hh
                  subst hi
                  refine ⟨rfl, ?_⟩
                  intro w m
                  exact updateCore_read_frame fuel h dataAddr h1 copyAddr
                    copyEs oldEs S oa b hcp hcg hog hSoa hSlt hScl hbS
                    hblt w m

/-- An entity type with no fields, used by the frame witness. -/
def wFrCls : DOClass := { clsId := 9, name := "Frame", fields := [] }

/-- A heap whose cell 1 is a retained `_originaldata` dict, used by the
frame witness. -/
def wFrH : Heap := [.hpure (.vint 1), .hdict [("z", 0)]]

/-- An instance retaining cell 1 as `_originaldata`, used by the frame
witness. -/
def wFrSelf : HInstance := { attrs := [], origAddr? := some 1 }

/-- The heap after `to_dict` on `wFrSelf`: the copied document occupies
the fresh cells 2 and 3. -/
def wFrH2 : Heap :=
  [.hpure (.vint 1), .hdict [("z", 0)], .hpure (.vint 1), .hdict [("z", 2)]]

/-- A caller-held document (cells 0 and 1) for the first-update witness. -/
def wUpH : Heap := [.hdict [("d", 1)], .hpure (.vint 4)]

/-- A fresh instance with no retained `_originaldata`, used by the
first-update witness. -/
def wUpSelf : HInstance := { attrs := [], origAddr? := none }

/-- The heap after the first `update_from_dict` on `wUpSelf`: cell 2 is
the new `_originaldata`, filled from the copy at cells 3 and 4. -/
def wUpH2 : Heap :=
  [.hdict [("d", 1)], .hpure (.vint 4), .hdict [("d", 3)],
    .hpure (.vint 4), .hdict [("d", 3)]]

/-- The instance after the first `update_from_dict` on `wUpSelf`. -/
def wUpSelf2 : HInstance := { attrs := [], origAddr? := some 2 }

/-- A heap holding a caller document (cells 0 and 1) and a separated
retained `_originaldata` (cells 2 and 3), for the later-update witness. -/
def wSpH : Heap :=
  [.hpure (.vint 1), .hdict [("d", 0)], .hpure (.vint 9), .hdict [("z", 2)]]

/-- An instance retaining cell 3 as `_originaldata`, used by the
later-update witness. -/
def wSpSelf : HInstance := { attrs := [], origAddr? := some 3 }

/-- The heap after a later `update_from_dict` on `wSpSelf`: the merge
rewrote cell 3 in place, pointing its new entry at the copy region. -/
def wSpH2 : Heap :=
  [.hpure (.vint 1), .hdict [("d", 0)], .hpure (.vint 9),
    .hdict [("z", 2), ("d", 4)], .hpure (.vint 1), .hdict [("d", 4)]]

/-- The instance after a later `update_from_dict` on `wSpSelf`. -/
def wSpSelf2 : HInstance := { attrs := [], origAddr? := some 3 }

theorem encode_frame_property_witness :
    (wFrH2[0]? = wFrH[0]? ∧
      readV 5 (wFrH2.set 3 (HVal.hpure .vnull)) 1 = readV 5 wFrH 1) ∧
    (wUpSelf2.origAddr? = some 2 ∧
      readV 5 (wUpH2.set 1 (HVal.hpure (.vint 99))) 2 = readV 5 wUpH2 2) ∧
    (wSpSelf2.origAddr? = some 3 ∧
      readV 5 (wSpH2.set 0 (HVal.hpure .vnull)) 3 = readV 5 wSpH2 3) := by
  refine ⟨⟨?_, ?_⟩, ⟨?_, ?_⟩, ⟨?_, ?_⟩⟩
  · exact (encode_frame_property.1 5 wFrCls wFrH wFrSelf wFrH2 3
      (by decide) rfl).1 0 (by decide)
  · exact ((encode_frame_property.1 5 wFrCls wFrH wFrSelf wFrH2 3
      (by decide) rfl).2.2 1 rfl (by decide)).2 3 (HVal.hpure .vnull) 5
      (by decide)
  · exact (encode_frame_property.2.1 5 wFrCls wUpH wUpSelf 0 wUpH2 wUpSelf2
      none rfl rfl).1
  · exact (encode_frame_property.2.1 5 wFrCls wUpH wUpSelf 0 wUpH2 wUpSelf2
      none rfl rfl).2 1 (HVal.hpure (.vint 99)) 5 (by decide)
  · exact (encode_frame_property.2.2 5 wFrCls wSpH wSpSelf 1 wSpH2 wSpSelf2
      none (fun x => x = 2 ∨ x = 3) 3 0 rfl (Or.inr rfl)
      (by intro x hx; rcases hx with rfl | rfl <;> decide)
      (by
        intro x v hx hv y hy
        rcases hx with rfl | rfl
        · injection hv with hv
          subst hv
          exact absurd hy (List.not_mem_nil y)
        · injection hv with hv
          subst hv
          exact Or.inl (List.mem_singleton.mp (show y ∈ [2] from hy)))
      (by decide) (by decide) rfl).1
  · exact (encode_frame_property.2.2 5 wFrCls wSpH wSpSelf 1 wSpH2 wSpSelf2
      none (fun x => x = 2 ∨ x = 3) 3 0 rfl (Or.inr rfl)
      (by intro x hx; rcases hx with rfl | rfl <;> decide)
      (by
        intro x v hx hv y hy
        rcases hx with rfl | rfl
        · injection hv with hv
          subst hv
          exact absurd hy (List.not_mem_nil y)
        · injection hv with hv
          subst hv
          exact Or.inl (List.mem_singleton.mp (show y ∈ [2] from hy)))
      (by decide) (by decide) rfl).2 (HVal.hpure .vnull) 5
